import Mathlib

/-!
Shallow embedding of the dangling-commits recovery engine
(`src/dangling_commits`): git object serialization and verification
(`domain/git_objects/commit.py`, `domain/git_objects/tree.py`,
`domain/utils.py`), the orchestrator's per-commit persistence loop
(`__main__.py`), the commit-graph resolver steps (`infra/github.py`,
`infra/gitlab.py`), the dangling-hash aggregators, the adaptive
bisection of batched graphql queries, and the branch detector
(`domain/interfaces/git_repository.py`).

External collaborators (SHA-1, `datetime.fromisoformat`,
`datetime.strptime`) are abstracted as the fields of `PyEnv`; every
function of the repository is translated directly from the Python
source over that environment.
-/

namespace DanglingCommits

/-- Errors raised by the Python code: `InvalidShaError`, `ValueError`,
`TypeError`, `AttributeError`, `KeyError`, `RepositoryError` and the
bare `Exception` used for status violations. -/
inductive PyError where
  | invalidSha
  | valueError
  | typeError
  | attributeError
  | keyError
  | repositoryError
  | generic
  deriving DecidableEq, Repr

/-- UTF-8 encoding of one code point, the model of Python `str.encode`
restricted to a single character. -/
def utf8Char (n : Nat) : List Nat :=
  if n < 0x80 then [n]
  else if n < 0x800 then [0xC0 + n / 64, 0x80 + n % 64]
  else if n < 0x10000 then [0xE0 + n / 4096, 0x80 + (n / 64) % 64, 0x80 + n % 64]
  else [0xF0 + n / 262144, 0x80 + (n / 4096) % 64, 0x80 + (n / 64) % 64, 0x80 + n % 64]

/-- Model of Python `str.encode()` (UTF-8 bytes of a string). -/
def utf8Bytes (s : String) : List Nat :=
  (s.data.map (fun c => utf8Char c.toNat)).flatten

/-- The external collaborators of the engine, visible at the interface:
`sha1` is `hashlib.sha1(...).hexdigest()`; `fromiso` is
`datetime.fromisoformat` returning `int(dt.timestamp())` together with
`dt.strftime("%z")` (the empty string for a naive datetime), `none`
when the parse raises `ValueError`; `strptimeZ` is
`datetime.strptime(date, "%Y-%m-%dT%H:%M:%SZ")` returning
`int(dt.timestamp())`, `none` when it raises `ValueError`. -/
structure PyEnv where
  sha1 : List Nat → String
  fromiso : String → Option (Int × String)
  strptimeZ : String → Option Int

/-- `utils.calculate_git_sha`: hash of `"<object_type> <len>\0" + data`. -/
def calculateGitSha (env : PyEnv) (data : List Nat) (objectType : String) : String :=
  env.sha1 (utf8Bytes (objectType ++ " " ++ toString data.length ++ "\x00") ++ data)

/-- `enums.CommitStatus`. -/
inductive CommitStatus where
  | unknown
  | erased
  | incomplete
  | found
  deriving DecidableEq, Repr

/-- `enums.CommitSignatureStatus`. -/
inductive CommitSignatureStatus where
  | unsigned
  | valid
  | noUser
  | unknownKey
  | badCert
  | badEmail
  | expiredKey
  | gpgverifyError
  | gpgverifyUnavailable
  | invalid
  | malformedSig
  | notSigningKey
  | ocspError
  | ocspPending
  | ocspRevoked
  | unknownSigType
  | unverifiedEmail
  deriving DecidableEq, Repr

/-- `CommitSignatureStatus[name]`: lookup of a member by its name, used
by `Github.__get_dangling_commits` on the graphql `state` field;
`none` models the `KeyError` branch. -/
def commitSignatureStatusOfString (s : String) : Option CommitSignatureStatus :=
  if s = "UNSIGNED" then some .unsigned
  else if s = "VALID" then some .valid
  else if s = "NO_USER" then some .noUser
  else if s = "UNKNOWN_KEY" then some .unknownKey
  else if s = "BAD_CERT" then some .badCert
  else if s = "BAD_EMAIL" then some .badEmail
  else if s = "EXPIRED_KEY" then some .expiredKey
  else if s = "GPGVERIFY_ERROR" then some .gpgverifyError
  else if s = "GPGVERIFY_UNAVAILABLE" then some .gpgverifyUnavailable
  else if s = "INVALID" then some .invalid
  else if s = "MALFORMED_SIG" then some .malformedSig
  else if s = "NOT_SIGNING_KEY" then some .notSigningKey
  else if s = "OCSP_ERROR" then some .ocspError
  else if s = "OCSP_PENDING" then some .ocspPending
  else if s = "OCSP_REVOKED" then some .ocspRevoked
  else if s = "UNKNOWN_SIG_TYPE" then some .unknownSigType
  else if s = "UNVERIFIED_EMAIL" then some .unverifiedEmail
  else none

/-- `commit.AuthorOrCommitter` (dataclass field order: date, email, name). -/
structure AuthorOrCommitter where
  date : String
  email : String
  name : String
  deriving DecidableEq, Repr

/-- `AuthorOrCommitter.__str__`: parse the ISO date and render
`"<name> <email> <unix> <tzoffset>"`; the `tzoffset` field is
`strftime("%z")`, which is the empty string for a naive datetime.
`ValueError` from `fromisoformat` propagates (`.error`). -/
def authorOrCommitterStr (env : PyEnv) (p : AuthorOrCommitter) : Except PyError String :=
  match env.fromiso p.date with
  | none => .error .valueError
  | some (ts, tz) => .ok (p.name ++ " <" ++ p.email ++ "> " ++ toString ts ++ " " ++ tz)

/-- `commit.CommitSignature` (optional payload and signature block). -/
structure CommitSignature where
  status : CommitSignatureStatus
  signature : Option String := none
  payload : Option String := none
  deriving DecidableEq, Repr

/-- `commit.Commit`. Python sets (`parents`, `children`) are carried as
lists in insertion order. -/
structure Commit where
  sha : String
  status : CommitStatus
  parents : List String
  children : List String
  tree : Option String := none
  author : Option AuthorOrCommitter := none
  committer : Option AuthorOrCommitter := none
  message : Option String := none
  signature : Option CommitSignature := none
  deriving Repr

/-- Rendering of an optional string inside a Python f-string
(`None` renders as `"None"`). -/
def optStr : Option String → String
  | none => "None"
  | some s => s

/-- C10: An `AuthorOrCommitter` whose date string `fromisoformat`
accepts but that carries no explicit UTC offset (so `strftime("%z")`
returns the empty string) renders without raising: `__str__` returns
`"<name> <email> <timestamp> "` with a trailing space and an empty
timezone field, a malformed person line rather than an error. -/
theorem authorOrCommitterStr_naive_no_raise (env : PyEnv) (p : AuthorOrCommitter)
    (ts : Int) (haccept : env.fromiso p.date = some (ts, "")) :
    authorOrCommitterStr env p =
      .ok (p.name ++ " <" ++ p.email ++ "> " ++ toString ts ++ " ") ∧
    ∃ r, authorOrCommitterStr env p = .ok r ∧
      r = (p.name ++ " <" ++ p.email ++ "> " ++ toString ts) ++ " " := by
  have h : authorOrCommitterStr env p =
      .ok (p.name ++ " <" ++ p.email ++ "> " ++ toString ts ++ " " ++ "") := by
    unfold authorOrCommitterStr
    rw [haccept]
  rw [String.append_empty] at h
  refine ⟨h, ⟨p.name ++ " <" ++ p.email ++ "> " ++ toString ts ++ " ", h, ?_⟩⟩
  simp [String.append_assoc]

/-- Two-digit zero-padded rendering of a number, Python `f'{i:02}'`
for `0 ≤ i < 100`. -/
def pad2 (i : Nat) : String :=
  if i < 10 then "0" ++ toString i else toString i

/-- The fallback person renderings of
`Commit.__generate_author_or_committer_str`: for each `i ∈ 1..23`, the
`+0000`-zoned renderings with the timestamp shifted by minus and plus
`i` hours together with the `-HH00` and `+HH00` zoned renderings. -/
def personFallbackVariants (p : AuthorOrCommitter) (timestamp : Int) : List String :=
  ((List.range' 1 23).map (fun i =>
    let offset : Int := Int.ofNat (i * 60 * 60)
    [p.name ++ " <" ++ p.email ++ "> " ++ toString (timestamp - offset) ++ " +0000",
     p.name ++ " <" ++ p.email ++ "> " ++ toString (timestamp + offset) ++ " +0000",
     p.name ++ " <" ++ p.email ++ "> " ++ toString (timestamp - offset) ++ " -" ++ pad2 i ++ "00",
     p.name ++ " <" ++ p.email ++ "> " ++ toString (timestamp + offset) ++ " +" ++ pad2 i ++ "00"])).flatten

/-- `Commit.__generate_author_or_committer_str`: try `str(person)`
(`["None"]` when the person is `None`, since `str(None)` succeeds);
on `ValueError` re-parse the date with the `"%Y-%m-%dT%H:%M:%SZ"`
format and enumerate the shifted renderings; a second `ValueError`
propagates. -/
def generateAuthorOrCommitterStr (env : PyEnv) (p : Option AuthorOrCommitter) :
    Except PyError (List String) :=
  match p with
  | none => .ok ["None"]
  | some person =>
    match authorOrCommitterStr env person with
    | .ok s => .ok [s]
    | .error _ =>
      match env.strptimeZ person.date with
      | none => .error .valueError
      | some ts => .ok (personFallbackVariants person ts)

/-- Replacement of the two-character pattern `['^', x]` by `rep`,
left-to-right and non-overlapping: the model of Python
`str.replace(f'^{x}', rep)`. -/
def replaceEscAux (x rep : Char) : List Char → List Char
  | [] => []
  | [c] => [c]
  | c1 :: c2 :: rest =>
    if c1 = '^' ∧ c2 = x then rep :: replaceEscAux x rep rest
    else c1 :: replaceEscAux x rep (c2 :: rest)

/-- String wrapper of `replaceEscAux`. -/
def pyReplaceEsc (s : String) (x rep : Char) : String :=
  String.mk (replaceEscAux x rep s.data)

/-- Substring test for the two-character pattern `['^', x]`, the model
of Python `f'^{x}' in message`. -/
def hasEscB (x : Char) : List Char → Bool
  | [] => false
  | [_] => false
  | c1 :: c2 :: rest => (c1 = '^' && c2 = x) || hasEscB x (c2 :: rest)

/-- `string.ascii_uppercase + "[\]^_"`, the loop domain of the
caret-escape substitution in `Commit.git_file`. -/
def escapeChars : List Char :=
  "ABCDEFGHIJKLMNOPQRSTUVWXYZ[\\]^_".data

/-- The caret-escape loop of `Commit.git_file`: for each `(idx, char)`
of `escapeChars`, when `f'^{char}'` occurs in the original message,
replace it by `chr(idx+1)` in every message variant. -/
def applyCaretEscapes (orig : String) (msgs : List String) : List String :=
  escapeChars.enum.foldl
    (fun ms p =>
      if hasEscB p.2 orig.data then
        ms.map (fun m => pyReplaceEsc m p.2 (Char.ofNat (p.1 + 1)))
      else ms)
    msgs

/-- Selections of one element (with the remaining elements in their
original order), the recursion scheme of `itertools.permutations`. -/
def pickEach : List α → List (α × List α)
  | [] => []
  | x :: xs => (x, xs) :: (pickEach xs).map (fun p => (p.1, x :: p.2))

/-- Fueled permutations in `itertools.permutations` order; the fuel is
the list length at the top-level call. -/
def pyPermsAux : Nat → List α → List (List α)
  | 0, _ => [[]]
  | n + 1, l => (pickEach l).map (fun p => (pyPermsAux n p.2).map (fun q => p.1 :: q)) |>.flatten

/-- `list(itertools.permutations(l))` (as lists). -/
def pyPermutations (l : List α) : List (List α) :=
  pyPermsAux l.length l

/-- `Commit.get_git_file_unsigned` with every argument supplied, as in
the variant-enumeration loop of `Commit.git_file`:
`tree <tree>\n(parent <p>\n)*author <a>\ncommitter <c>\n\n<message>`.
The tree renders through the f-string, so `None` renders as
`"None"`. -/
def getGitFileUnsignedWith (tree : Option String) (parents : List String)
    (author committer message : String) : String :=
  let c0 := "tree " ++ optStr tree ++ "\n"
  let c1 := parents.foldl (fun acc p => acc ++ "parent " ++ p ++ "\n") c0
  c1 ++ "author " ++ author ++ "\n" ++ "committer " ++ committer ++ "\n\n" ++ message

/-- Resolution of the `author` / `committer` argument defaults of
`Commit.get_git_file_unsigned`: an explicitly passed string is used as
is; an absent argument falls back to `str(self.author)` which is
`"None"` for a missing person and may raise `ValueError` through
`AuthorOrCommitter.__str__`. -/
def resolvePersonArg (env : PyEnv) (arg : Option String)
    (person : Option AuthorOrCommitter) : Except PyError String :=
  match arg with
  | some s => .ok s
  | none =>
    match person with
    | none => .ok "None"
    | some p => authorOrCommitterStr env p

/-- `Commit.get_git_file_unsigned` with default arguments, as invoked
by the forgery path of `__main__.main`: absent arguments are filled
from the commit (`str(self.author)` may raise `ValueError`; a `None`
field renders as `"None"` through the f-string / `str(None)`). -/
def getGitFileUnsigned (env : PyEnv) (c : Commit) (parents : Option (List String) := none)
    (author : Option String := none) (committer : Option String := none)
    (message : Option String := none) : Except PyError String :=
  match resolvePersonArg env author c.author with
  | .error e => .error e
  | .ok a =>
    match resolvePersonArg env committer c.committer with
    | .error e => .error e
    | .ok cm =>
      .ok (getGitFileUnsignedWith c.tree (parents.getD c.parents) a cm
        (match message with
         | some m => m
         | none => optStr c.message))

/-- The signed reconstruction of `Commit.git_file`: walk the payload
lines and, immediately after the first line starting with
`"committer"`, insert `gpgsig` followed by each signature line
prefixed with a space and terminated by `\n`, with the final trailing
newline removed (`commit[:-1]`). -/
def buildSigned (payload signature : String) : String :=
  (((payload.splitOn "\n").foldl
    (fun (st : String × Bool) line =>
      let commit := if st.1 ≠ "" then st.1 ++ "\n" ++ line else line
      if !st.2 && line.startsWith "committer" then
        let withSig := (signature.splitOn "\n").foldl
          (fun acc sigLine => acc ++ " " ++ sigLine ++ "\n") (commit ++ "\ngpgsig")
        (withSig.dropRight 1, true)
      else (commit, st.2))
    ("", false))).1

/-- The ordered variant enumeration of the unsigned path of
`Commit.git_file`: the generator expression
`for m in messages for p in parents for a in authors for c in committers`. -/
def unsignedVariants (tree : Option String) (messages : List String)
    (parentsPerms : List (List String)) (authors committers : List String) : List String :=
  (messages.map (fun m =>
    (parentsPerms.map (fun p =>
      (authors.map (fun a =>
        committers.map (fun cm =>
          getGitFileUnsignedWith tree p a cm m))).flatten)).flatten)).flatten

/-- `Commit.git_file`. Signed commits (signature present with status
other than `UNSIGNED`) go through `buildSigned` and raise
`InvalidShaError` on a sha mismatch; unsigned commits enumerate the
trailer, caret-escape, parent-permutation and person variants and
return the first serialization whose computed id equals `sha`, raising
`InvalidShaError` when none matches. A status other than `FOUND`
raises a bare `Exception`. -/
def commitGitFile (env : PyEnv) (c : Commit) : Except PyError String :=
  if c.status ≠ CommitStatus.found then .error .generic
  else
    match c.signature with
    | some sig =>
      if sig.status ≠ CommitSignatureStatus.unsigned then
        match sig.payload, sig.signature with
        | some payload, some signature =>
          let commitStr := buildSigned payload signature
          if calculateGitSha env (utf8Bytes commitStr) "commit" ≠ c.sha then
            .error .invalidSha
          else .ok commitStr
        | _, _ => .error .attributeError
      else commitUnsignedPath env c
    | none => commitUnsignedPath env c
where
  /-- The unsigned branch (the `else` of the signature test). -/
  commitUnsignedPath (env : PyEnv) (c : Commit) : Except PyError String :=
    match c.message with
    | none => .error .typeError
    | some msg => do
      let messages := applyCaretEscapes msg [msg ++ "\n", msg, msg ++ "\n\n"]
      let parentsPerms := pyPermutations c.parents
      let authors ← generateAuthorOrCommitterStr env c.author
      let committers ← generateAuthorOrCommitterStr env c.committer
      match (unsignedVariants c.tree messages parentsPerms authors committers).find?
          (fun v => calculateGitSha env (utf8Bytes v) "commit" == c.sha) with
      | some v => .ok v
      | none => .error .invalidSha

/-- Value of one hex digit, `none` on a non-hex character. -/
def hexVal (c : Char) : Option Nat :=
  if '0' ≤ c ∧ c ≤ '9' then some (c.toNat - 48)
  else if 'a' ≤ c ∧ c ≤ 'f' then some (c.toNat - 87)
  else if 'A' ≤ c ∧ c ≤ 'F' then some (c.toNat - 55)
  else none

/-- `bytearray.fromhex` on a list of characters: pairs of hex digits;
`none` models the `ValueError` on odd length or a non-hex digit. -/
def hexDecodeAux : List Char → Option (List Nat)
  | [] => some []
  | [_] => none
  | a :: b :: rest =>
    match hexVal a, hexVal b, hexDecodeAux rest with
    | some x, some y, some tl => some ((16 * x + y) :: tl)
    | _, _, _ => none

/-- `bytearray.fromhex` on a string. -/
def hexDecode (s : String) : Option (List Nat) :=
  hexDecodeAux s.data

/-- `tree.TreeEntry` (constructor order in the source:
sha, mode, name, type). -/
structure TreeEntry where
  sha : String
  mode : Nat
  name : String
  type : String
  deriving DecidableEq, Repr

/-- `tree.Tree`. -/
structure Tree where
  sha : String
  entries : List TreeEntry
  deriving DecidableEq, Repr

/-- The bytes contributed by one tree entry:
`f'{mode} {name}\x00'.encode()` followed by the binary decoding of the
entry's sha. -/
def treeEntryBytes (e : TreeEntry) : Option (List Nat) :=
  (hexDecode e.sha).map
    (fun bs => utf8Bytes (toString e.mode ++ " " ++ e.name ++ "\x00") ++ bs)

/-- The byte encoding loop of `Tree.git_file` (and of
`Tree.calculate_git_sha`): concatenation of the entry encodings in
stored order; `none` models the `ValueError` of `bytearray.fromhex`. -/
def treeBytes : List TreeEntry → Option (List Nat)
  | [] => some []
  | e :: rest =>
    match treeEntryBytes e, treeBytes rest with
    | some b, some tl => some (b ++ tl)
    | _, _ => none

/-- `Tree.git_file`: encode the entries, then raise `InvalidShaError`
unless the computed id equals the stored sha. -/
def treeGitFile (env : PyEnv) (t : Tree) : Except PyError (List Nat) :=
  match treeBytes t.entries with
  | none => .error .valueError
  | some bytes =>
    if calculateGitSha env bytes "tree" ≠ t.sha then .error .invalidSha
    else .ok bytes

theorem treeBytes_eq_flatten (entries : List TreeEntry) (bs : List Nat)
    (h : treeBytes entries = some bs) :
    bs = (entries.map (fun e => utf8Bytes (toString e.mode ++ " " ++ e.name ++ "\x00") ++
      (hexDecode e.sha).getD [])).flatten ∧
    ∀ e ∈ entries, (hexDecode e.sha).isSome := by
  induction entries generalizing bs with
  | nil =>
    simp only [treeBytes] at h
    cases h
    simp
  | cons e rest ih =>
    simp only [treeBytes] at h
    cases he : treeEntryBytes e with
    | none => rw [he] at h; cases h
    | some b =>
      cases hr : treeBytes rest with
      | none => rw [he, hr] at h; cases h
      | some tl =>
        rw [he, hr] at h
        cases h
        obtain ⟨h1, h2⟩ := ih tl hr
        unfold treeEntryBytes at he
        cases hd : hexDecode e.sha with
        | none => rw [hd] at he; cases he
        | some ds =>
          rw [hd] at he
          cases he
          refine ⟨?_, ?_⟩
          · simp [hd, h1]
          · intro x hx
            rw [List.mem_cons] at hx
            rcases hx with rfl | hx
            · simp [hd]
            · exact h2 x hx

/-- C2: when every entry sha hex-decodes (to the 20 raw bytes of a
40-hex-character sha), the tree encoding is the concatenation, in
stored entry order, of `"<mode> <name>\0"` followed by the binary
decoding of the entry's sha; `Tree.git_file` returns exactly these
bytes when the computed git id equals the tree's sha and raises
`InvalidShaError` otherwise. -/
theorem treeGitFile_spec (env : PyEnv) (t : Tree) (bs : List Nat)
    (henc : treeBytes t.entries = some bs)
    (hlen : ∀ e ∈ t.entries, ∃ d, hexDecode e.sha = some d ∧ d.length = 20) :
    bs = (t.entries.map (fun e =>
        utf8Bytes (toString e.mode ++ " " ++ e.name ++ "\x00") ++
        (hexDecode e.sha).getD [])).flatten ∧
    (∀ e ∈ t.entries, ((hexDecode e.sha).getD []).length = 20) ∧
    (calculateGitSha env bs "tree" = t.sha → treeGitFile env t = .ok bs) ∧
    (calculateGitSha env bs "tree" ≠ t.sha → treeGitFile env t = .error .invalidSha) := by
  obtain ⟨hflat, _⟩ := treeBytes_eq_flatten t.entries bs henc
  refine ⟨hflat, ?_, ?_, ?_⟩
  · intro e he
    obtain ⟨d, hd, hdl⟩ := hlen e he
    simp [hd, hdl]
  · intro hsha
    simp [treeGitFile, henc, hsha]
  · intro hsha
    simp [treeGitFile, henc, hsha]

/-- Witness for C2 at a concrete one-entry tree under a concrete
hash function. -/
theorem treeGitFile_spec_witness :
    let env : PyEnv := ⟨fun bs => if bs.length = 36 then "ok" else "no", fun _ => none, fun _ => none⟩
    let t : Tree := ⟨"ok", [⟨"00112233445566778899aabbccddeeff00112233", 40000, "d", "tree"⟩]⟩
    treeGitFile env t = .ok (utf8Bytes "40000 d\x00" ++
      [0x00, 0x11, 0x22, 0x33, 0x44, 0x55, 0x66, 0x77, 0x88, 0x99,
       0xaa, 0xbb, 0xcc, 0xdd, 0xee, 0xff, 0x00, 0x11, 0x22, 0x33]) := by
  intro env t
  have henc : treeBytes t.entries = some (utf8Bytes "40000 d\x00" ++
      [0x00, 0x11, 0x22, 0x33, 0x44, 0x55, 0x66, 0x77, 0x88, 0x99,
       0xaa, 0xbb, 0xcc, 0xdd, 0xee, 0xff, 0x00, 0x11, 0x22, 0x33]) := by decide
  have hlen : ∀ e ∈ t.entries, ∃ d, hexDecode e.sha = some d ∧ d.length = 20 := by
    intro e he
    refine ⟨[0x00, 0x11, 0x22, 0x33, 0x44, 0x55, 0x66, 0x77, 0x88, 0x99,
       0xaa, 0xbb, 0xcc, 0xdd, 0xee, 0xff, 0x00, 0x11, 0x22, 0x33], ?_, by decide⟩
    have : e = ⟨"00112233445566778899aabbccddeeff00112233", 40000, "d", "tree"⟩ := by
      simpa [t] using he
    rw [this]
    decide
  have h := treeGitFile_spec env t _ henc hlen
  exact h.2.2.1 (by decide)

theorem personFallbackVariants_mem (p : AuthorOrCommitter) (ts : Int) (s : String) :
    s ∈ personFallbackVariants p ts ↔
      ∃ i, 1 ≤ i ∧ i ≤ 23 ∧
        (s = p.name ++ " <" ++ p.email ++ "> " ++ toString (ts - Int.ofNat (i * 60 * 60)) ++ " +0000" ∨
         s = p.name ++ " <" ++ p.email ++ "> " ++ toString (ts + Int.ofNat (i * 60 * 60)) ++ " +0000" ∨
         s = p.name ++ " <" ++ p.email ++ "> " ++ toString (ts - Int.ofNat (i * 60 * 60)) ++ " -" ++ pad2 i ++ "00" ∨
         s = p.name ++ " <" ++ p.email ++ "> " ++ toString (ts + Int.ofNat (i * 60 * 60)) ++ " +" ++ pad2 i ++ "00") := by
  unfold personFallbackVariants
  simp only [List.mem_flatten, List.mem_map]
  constructor
  · rintro ⟨l, ⟨i, hi, rfl⟩, hs⟩
    rw [List.mem_range'_1] at hi
    refine ⟨i, hi.1, by omega, ?_⟩
    simpa using hs
  · rintro ⟨i, h1, h2, hs⟩
    refine ⟨_, ⟨i, List.mem_range'_1.mpr ⟨h1, by omega⟩, rfl⟩, ?_⟩
    simpa using hs

/-- C9: when the canonical `"<name> <email> <unix> <tzoffset>"`
rendering fails (`fromisoformat` raises), the fallback parses the ISO
date with the `"%Y-%m-%dT%H:%M:%SZ"` format and uses that timestamp,
then enumerates, for every `i ∈ 1..23`, the `+0000`-zoned renderings
with the timestamp shifted by minus and plus `i` hours together with
the `-HH00` and `+HH00` zoned renderings (92 variants); the
enumeration is performed independently for the author and the
committer of a commit. -/
theorem generateAuthorOrCommitterStr_fallback (env : PyEnv) (c : Commit)
    (pa pc : AuthorOrCommitter) (tsa tsc : Int)
    (hca : c.author = some pa) (hcc : c.committer = some pc)
    (hfa : env.fromiso pa.date = none) (hfc : env.fromiso pc.date = none)
    (hza : env.strptimeZ pa.date = some tsa) (hzc : env.strptimeZ pc.date = some tsc) :
    generateAuthorOrCommitterStr env c.author = .ok (personFallbackVariants pa tsa) ∧
    generateAuthorOrCommitterStr env c.committer = .ok (personFallbackVariants pc tsc) ∧
    (personFallbackVariants pa tsa).length = 92 ∧
    (∀ s, s ∈ personFallbackVariants pa tsa ↔
      ∃ i, 1 ≤ i ∧ i ≤ 23 ∧
        (s = pa.name ++ " <" ++ pa.email ++ "> " ++ toString (tsa - Int.ofNat (i * 60 * 60)) ++ " +0000" ∨
         s = pa.name ++ " <" ++ pa.email ++ "> " ++ toString (tsa + Int.ofNat (i * 60 * 60)) ++ " +0000" ∨
         s = pa.name ++ " <" ++ pa.email ++ "> " ++ toString (tsa - Int.ofNat (i * 60 * 60)) ++ " -" ++ pad2 i ++ "00" ∨
         s = pa.name ++ " <" ++ pa.email ++ "> " ++ toString (tsa + Int.ofNat (i * 60 * 60)) ++ " +" ++ pad2 i ++ "00")) := by
  refine ⟨?_, ?_, ?_, personFallbackVariants_mem pa tsa⟩
  · rw [hca]
    simp only [generateAuthorOrCommitterStr, authorOrCommitterStr, hfa, hza]
  · rw [hcc]
    simp only [generateAuthorOrCommitterStr, authorOrCommitterStr, hfc, hzc]
  · unfold personFallbackVariants
    rw [List.length_flatten, List.map_map]
    norm_num [List.range']

/-- Witness for C9 at a concrete commit and environment. -/
theorem generateAuthorOrCommitterStr_fallback_witness :
    let env : PyEnv := ⟨fun _ => "h", fun _ => none, fun _ => some 7200⟩
    let p : AuthorOrCommitter := ⟨"2020-01-01T00:00:00Z", "e@x", "n"⟩
    let c : Commit := { sha := "s", status := .found, parents := [], children := [],
                        author := some p, committer := some p }
    generateAuthorOrCommitterStr env c.author = .ok (personFallbackVariants p 7200) ∧
    (personFallbackVariants p 7200).length = 92 ∧
    "n <e@x> 3600 +0000" ∈ personFallbackVariants p 7200 := by
  intro env p c
  have h := generateAuthorOrCommitterStr_fallback env c p p 7200 7200
    rfl rfl rfl rfl rfl rfl
  refine ⟨h.1, h.2.2.1, ?_⟩
  rw [h.2.2.2 "n <e@x> 3600 +0000"]
  exact ⟨1, by omega, by omega, Or.inl (by decide)⟩

/-- Witness for C10 at a concrete naive-datetime environment. -/
theorem authorOrCommitterStr_naive_no_raise_witness :
    authorOrCommitterStr ⟨fun _ => "h", fun _ => some (5, ""), fun _ => none⟩
      ⟨"2020-01-01T00:00:05", "e@x", "n"⟩ = .ok "n <e@x> 5 " := by
  have h := authorOrCommitterStr_naive_no_raise
    ⟨fun _ => "h", fun _ => some (5, ""), fun _ => none⟩
    ⟨"2020-01-01T00:00:05", "e@x", "n"⟩ 5 rfl
  exact h.1

theorem hasEscB_cons_false {x c : Char} {l : List Char}
    (hhead : ∀ h t, l = h :: t → (c = '^' ∧ h = x) → False)
    (hl : hasEscB x l = false) : hasEscB x (c :: l) = false := by
  cases l with
  | nil => rfl
  | cons h t =>
    show ((c = '^' && h = x) || hasEscB x (h :: t)) = false
    rw [hl]
    simp only [Bool.or_false, Bool.and_eq_false_iff]
    by_cases hc : c = '^'
    · by_cases hh : h = x
      · exact absurd ⟨hc, hh⟩ (hhead h t rfl)
      · simp [hh]
    · simp [hc]

theorem hasEscB_of_cons {x c : Char} {l : List Char}
    (h : hasEscB x (c :: l) = false) : hasEscB x l = false := by
  cases l with
  | nil => rfl
  | cons h2 t =>
    have := h
    show hasEscB x (h2 :: t) = false
    simp only [hasEscB, Bool.or_eq_false_iff] at this
    exact this.2

theorem hasEscB_head {x c : Char} {l : List Char} (hc : c ≠ '^')
    (hl : hasEscB x l = false) : hasEscB x (c :: l) = false := by
  refine hasEscB_cons_false (fun h t _ hp => hc hp.1) hl

/-- Induction principle following the two-character window recursion
shared by `replaceEscAux` and `hasEscB`. -/
theorem escInduction (x : Char) (motive : List Char → Prop) (h1 : motive [])
    (h2 : ∀ c, motive [c])
    (h3 : ∀ c1 c2 r, (c1 = '^' ∧ c2 = x) → motive r → motive (c1 :: c2 :: r))
    (h4 : ∀ c1 c2 r, ¬(c1 = '^' ∧ c2 = x) → motive (c2 :: r) → motive (c1 :: c2 :: r)) :
    ∀ l, motive l
  | [] => h1
  | [c] => h2 c
  | c1 :: c2 :: r =>
    if h : c1 = '^' ∧ c2 = x then
      h3 c1 c2 r h (escInduction x motive h1 h2 h3 h4 r)
    else
      h4 c1 c2 r h (escInduction x motive h1 h2 h3 h4 (c2 :: r))

theorem replaceEscAux_head (x rep : Char) (c : Char) (m : List Char) :
    (replaceEscAux x rep (c :: m)).head? = some c ∨
      (replaceEscAux x rep (c :: m)).head? = some rep := by
  cases m with
  | nil => left; rfl
  | cons c3 m2 =>
    rw [replaceEscAux]
    by_cases hm2 : c = '^' ∧ c3 = x
    · right; rw [if_pos hm2]; rfl
    · left; rw [if_neg hm2]; rfl

/-- Replacing every `^x` escape leaves no `^x` escape behind, provided
the replacement character is not `^` (which holds for the C0 control
bytes substituted by `Commit.git_file`). -/
theorem hasEscB_replaceEscAux (x rep : Char) (hr1 : rep ≠ '^') (hr2 : rep ≠ x)
    (l : List Char) : hasEscB x (replaceEscAux x rep l) = false := by
  induction l using escInduction x with
  | h1 => rfl
  | h2 c => rfl
  | h3 c1 c2 rest hm ih =>
    rw [replaceEscAux, if_pos hm]
    exact hasEscB_head hr1 ih
  | h4 c1 c2 rest hm ih =>
    rw [replaceEscAux, if_neg hm]
    refine hasEscB_cons_false (fun h t ht hp => ?_) ih
    rcases replaceEscAux_head x rep c2 rest with hh | hh <;>
      rw [ht] at hh <;> simp only [List.head?] at hh <;>
      injection hh with hh <;> subst hh
    · exact hm ⟨hp.1, hp.2⟩
    · exact absurd hp.2 hr2

/-- Replacing a `^y` escape cannot create a `^x` escape, provided the
replacement character is neither `^` nor `x`. -/
theorem hasEscB_replaceEscAux_other (x y rep : Char) (hr1 : rep ≠ '^') (hr2 : rep ≠ x)
    (l : List Char) (hl : hasEscB x l = false) :
    hasEscB x (replaceEscAux y rep l) = false := by
  induction l using escInduction y with
  | h1 => rfl
  | h2 c => rfl
  | h3 c1 c2 rest hm ih =>
    rw [replaceEscAux, if_pos hm]
    have hrest : hasEscB x rest = false :=
      hasEscB_of_cons (hasEscB_of_cons hl)
    exact hasEscB_head hr1 (ih hrest)
  | h4 c1 c2 rest hm ih =>
    rw [replaceEscAux, if_neg hm]
    have htail : hasEscB x (c2 :: rest) = false := hasEscB_of_cons hl
    refine hasEscB_cons_false (fun h t ht hp => ?_) (ih htail)
    rcases replaceEscAux_head y rep c2 rest with hh | hh <;>
      rw [ht] at hh <;> simp only [List.head?] at hh <;>
      injection hh with hh <;> subst hh
    · have hesc : hasEscB x (c1 :: h :: rest) = true := by
        simp [hasEscB, hp.1, hp.2]
      rw [hesc] at hl
      exact Bool.noConfusion hl
    · exact absurd hp.2 hr2

/-- A first escape occurrence is rewritten in place: when `^x` does
not occur in `a ++ ['^']` (no earlier or overlapping occurrence), the
replacement maps `a ++ '^' :: x :: b` to `a ++ rep :: ` the rewritten
tail. -/
theorem replaceEscAux_first_occurrence (x rep : Char) (a b : List Char)
    (ha : hasEscB x (a ++ ['^']) = false) :
    replaceEscAux x rep (a ++ '^' :: x :: b) = a ++ rep :: replaceEscAux x rep b := by
  induction a with
  | nil =>
    simp only [List.nil_append]
    rw [replaceEscAux, if_pos ⟨rfl, rfl⟩]
  | cons c cs ih =>
    have htail : hasEscB x (cs ++ ['^']) = false := hasEscB_of_cons ha
    cases cs with
    | nil =>
      simp only [List.nil_append, List.cons_append] at ha ⊢
      have hcx : ¬(c = '^' ∧ '^' = x) := by
        rintro ⟨rfl, rfl⟩
        exact absurd ha (by decide)
      rw [replaceEscAux, if_neg hcx]
      rw [show replaceEscAux x rep ('^' :: x :: b) = rep :: replaceEscAux x rep b by
        rw [replaceEscAux, if_pos ⟨rfl, rfl⟩]]
    | cons c2 cs2 =>
      simp only [List.cons_append] at ha ⊢
      have hcx : ¬(c = '^' ∧ c2 = x) := by
        intro hp
        simp [hasEscB, hp.1, hp.2] at ha
      rw [replaceEscAux, if_neg hcx]
      simp only [List.cons_append] at ih ⊢
      rw [ih htail]

theorem hasEscB_free (x : Char) : ∀ l : List Char, (∀ c ∈ l, c ≠ '^') →
    hasEscB x l = false
  | [], _ => rfl
  | [_], _ => rfl
  | c1 :: c2 :: r, h => by
    have h1 : c1 ≠ '^' := h c1 (by simp)
    have hrec := hasEscB_free x (c2 :: r) (fun c hc => h c (List.mem_cons_of_mem c1 hc))
    show ((c1 = '^' && c2 = x) || hasEscB x (c2 :: r)) = false
    simp [h1, hrec]

theorem hasEscB_append_free (x : Char) (l2 : List Char)
    (h2 : ∀ c ∈ l2, c ≠ '^' ∧ c ≠ x) :
    ∀ l1, hasEscB x (l1 ++ l2) = hasEscB x l1
  | [] => by
    simp only [List.nil_append]
    exact hasEscB_free x l2 (fun c hc => (h2 c hc).1)
  | [c] => by
    cases hl : l2 with
    | nil => rfl
    | cons h t =>
      have hh := h2 h (by rw [hl]; simp)
      have hfree : hasEscB x (h :: t) = false :=
        hasEscB_free x (h :: t) (fun c hc => (h2 c (by rw [hl]; exact hc)).1)
      show ((c = '^' && h = x) || hasEscB x (h :: t)) = false
      simp [hh.2, hfree]
  | c1 :: c2 :: r => by
    have ih := hasEscB_append_free x l2 h2 (c2 :: r)
    show ((c1 = '^' && c2 = x) || hasEscB x (c2 :: r ++ l2)) =
      ((c1 = '^' && c2 = x) || hasEscB x (c2 :: r))
    rw [show (c2 :: r ++ l2) = ((c2 :: r) ++ l2) from rfl, ih]

/-- The caret-escape fold preserves the absence of a `^x` escape when
every replacement character is neither `^` nor `x`. -/
theorem foldEsc_preserve (orig : String) (x : Char) :
    ∀ (todo : List (Nat × Char)) (ms : List String),
    (∀ p ∈ todo, Char.ofNat (p.1 + 1) ≠ '^' ∧ Char.ofNat (p.1 + 1) ≠ x) →
    (∀ s ∈ ms, hasEscB x s.data = false) →
    ∀ s ∈ todo.foldl
      (fun ms p =>
        if hasEscB p.2 orig.data then
          ms.map (fun m => pyReplaceEsc m p.2 (Char.ofNat (p.1 + 1)))
        else ms) ms,
      hasEscB x s.data = false
  | [], ms, _, hms => hms
  | p :: todo, ms, hc, hms => by
    rw [List.foldl_cons]
    refine foldEsc_preserve orig x todo _ (fun q hq => hc q (List.mem_cons_of_mem p hq)) ?_
    by_cases hp : hasEscB p.2 orig.data
    · rw [if_pos hp]
      intro s hs
      rw [List.mem_map] at hs
      obtain ⟨m, hm, rfl⟩ := hs
      have hcp := hc p (List.mem_cons_self p todo)
      exact hasEscB_replaceEscAux_other x p.2 _ hcp.1 hcp.2 m.data (hms m hm)
    · rw [if_neg hp]
      exact hms

/-- Once the `^x` replacement step has run (because `^x` occurs in the
original message), no later step reintroduces it. -/
theorem foldEsc_kills (orig : String) (x : Char) :
    ∀ (todo : List (Nat × Char)) (ms : List String),
    (∀ p ∈ todo, Char.ofNat (p.1 + 1) ≠ '^' ∧ Char.ofNat (p.1 + 1) ≠ x) →
    (∃ p ∈ todo, p.2 = x) →
    hasEscB x orig.data = true →
    ∀ s ∈ todo.foldl
      (fun ms p =>
        if hasEscB p.2 orig.data then
          ms.map (fun m => pyReplaceEsc m p.2 (Char.ofNat (p.1 + 1)))
        else ms) ms,
      hasEscB x s.data = false
  | [], _, _, hex, _ => by simp at hex
  | p :: todo, ms, hc, hex, horig => by
    rw [List.foldl_cons]
    by_cases hpx : p.2 = x
    · subst hpx
      rw [if_pos horig]
      refine foldEsc_preserve orig p.2 todo _
        (fun q hq => hc q (List.mem_cons_of_mem p hq)) ?_
      intro s hs
      rw [List.mem_map] at hs
      obtain ⟨m, hm, rfl⟩ := hs
      have hcp := hc p (List.mem_cons_self p todo)
      exact hasEscB_replaceEscAux p.2 _ hcp.1 hcp.2 m.data
    · have hex2 : ∃ q ∈ todo, q.2 = x := by
        rcases hex with ⟨q, hq, hqx⟩
        rw [List.mem_cons] at hq
        rcases hq with rfl | hq
        · exact absurd hqx hpx
        · exact ⟨q, hq, hqx⟩
      exact fun s hs => foldEsc_kills orig x todo _
        (fun q hq => hc q (List.mem_cons_of_mem p hq)) hex2 horig s hs

theorem escapeReps_ok : ∀ p ∈ escapeChars.enum, ∀ c ∈ escapeChars,
    Char.ofNat (p.1 + 1) ≠ '^' ∧ Char.ofNat (p.1 + 1) ≠ c := by decide

theorem escapeChars_covered : ∀ c ∈ escapeChars, ∃ p ∈ escapeChars.enum, p.2 = c := by
  decide

/-- After the caret-escape loop of `Commit.git_file`, no `^X` escape
(for any `X` of the loop domain) remains in any of the three message
trailer variants. -/
theorem applyCaretEscapes_no_escape (m : String) (ch : Char) (hch : ch ∈ escapeChars) :
    ∀ s ∈ applyCaretEscapes m [m ++ "\n", m, m ++ "\n\n"], hasEscB ch s.data = false := by
  have hconds : ∀ p ∈ escapeChars.enum,
      Char.ofNat (p.1 + 1) ≠ '^' ∧ Char.ofNat (p.1 + 1) ≠ ch :=
    fun p hp => escapeReps_ok p hp ch hch
  unfold applyCaretEscapes
  by_cases horig : hasEscB ch m.data
  · exact foldEsc_kills m ch escapeChars.enum _ hconds (escapeChars_covered ch hch) horig
  · refine foldEsc_preserve m ch escapeChars.enum _ hconds ?_
    have hnl : ∀ c ∈ ("\n".data : List Char), c ≠ '^' ∧ c ≠ ch := by
      intro c hc
      have : c = '\n' := by simpa using hc
      subst this
      refine ⟨by decide, ?_⟩
      intro h
      subst h
      revert hch
      decide
    have hnl2 : ∀ c ∈ ("\n\n".data : List Char), c ≠ '^' ∧ c ≠ ch := by
      intro c hc
      have : c = '\n' := by
        rcases (by simpa using hc : c = '\n' ∨ c = '\n') with h | h <;> exact h
      subst this
      refine ⟨by decide, ?_⟩
      intro h
      subst h
      revert hch
      decide
    intro s hs
    rw [show ([m ++ "\n", m, m ++ "\n\n"] : List String) =
      [m ++ "\n"] ++ [m] ++ [m ++ "\n\n"] from rfl] at hs
    simp only [List.mem_append, List.mem_singleton] at hs
    rcases hs with (rfl | rfl) | rfl
    · rw [String.data_append]
      rw [hasEscB_append_free ch "\n".data hnl m.data]
      exact Bool.not_eq_true _ ▸ (by simpa using horig)
    · exact Bool.not_eq_true _ ▸ (by simpa using horig)
    · rw [String.data_append]
      rw [hasEscB_append_free ch "\n\n".data hnl2 m.data]
      exact Bool.not_eq_true _ ▸ (by simpa using horig)

/-- C8: the caret-escape substitution of `Commit.git_file`: for the
`X` at position `i` of `escapeChars` (`A..Z` then `[ \ ] ^ _`), each
non-overlapping occurrence of `^X` is replaced by the single C0
control byte `chr(i+1)` (`^A` becomes `\x01`, ..., `^_` becomes
`\x1F`); the replacement is applied to every message trailer variant,
and after the loop no caret-escape of the domain remains in any
variant ("all such escapes occurring in the text are replaced");
on the caret-escape scenario the message `"fix ^B bug"` is
reconstructed with `\x02`. -/
theorem applyCaretEscapes_spec (m : String) :
    (∀ ch ∈ escapeChars,
      ∀ s ∈ applyCaretEscapes m [m ++ "\n", m, m ++ "\n\n"], hasEscB ch s.data = false) ∧
    (∀ i, ∀ hi : i < escapeChars.length, ∀ a b : List Char,
      hasEscB (escapeChars.get ⟨i, hi⟩) (a ++ ['^']) = false →
      replaceEscAux (escapeChars.get ⟨i, hi⟩) (Char.ofNat (i + 1))
          (a ++ '^' :: escapeChars.get ⟨i, hi⟩ :: b) =
        a ++ Char.ofNat (i + 1) ::
          replaceEscAux (escapeChars.get ⟨i, hi⟩) (Char.ofNat (i + 1)) b) ∧
    escapeChars.length = 31 ∧
    applyCaretEscapes "fix ^B bug" ["fix ^B bug\n", "fix ^B bug", "fix ^B bug\n\n"] =
      ["fix \x02 bug\n", "fix \x02 bug", "fix \x02 bug\n\n"] := by
  refine ⟨applyCaretEscapes_no_escape m, ?_, by decide, by decide⟩
  intro i hi a b ha
  exact replaceEscAux_first_occurrence (escapeChars.get ⟨i, hi⟩) (Char.ofNat (i + 1)) a b ha

/-- Witness for C8: the occurrence-rewriting conjunct applied at the
`^B` scenario, and the no-escape conjunct applied at `ch = 'B'`. -/
theorem applyCaretEscapes_spec_witness :
    replaceEscAux 'B' (Char.ofNat 2) ("fix ".data ++ '^' :: 'B' :: " bug".data) =
      "fix ".data ++ Char.ofNat 2 :: replaceEscAux 'B' (Char.ofNat 2) " bug".data ∧
    hasEscB 'B' ("fix \x02 bug").data = false := by
  have h := applyCaretEscapes_spec "fix ^B bug"
  constructor
  · have h2 := h.2.1 1 (by decide) "fix ".data " bug".data (by decide)
    have hget : escapeChars.get ⟨1, by decide⟩ = 'B' := by decide
    rw [hget] at h2
    exact h2
  · have hbridge : (["fix ^B bug" ++ "\n", "fix ^B bug", "fix ^B bug" ++ "\n\n"] :
        List String) = ["fix ^B bug\n", "fix ^B bug", "fix ^B bug\n\n"] := by decide
    refine h.1 'B' (by decide) "fix \x02 bug" ?_
    rw [hbridge, h.2.2.2]
    simp

theorem find?_first {α : Type} {p : α → Bool} :
    ∀ (l : List α) (a : α), l.find? p = some a →
      p a = true ∧ ∃ i : Fin l.length, l.get i = a ∧
        ∀ j : Fin l.length, j.val < i.val → p (l.get j) = false
  | [], a, h => by simp at h
  | x :: xs, a, h => by
    by_cases hx : p x
    · rw [List.find?_cons_of_pos _ hx] at h
      cases h
      refine ⟨hx, ⟨0, Nat.succ_pos _⟩, rfl, ?_⟩
      intro j hj
      exact absurd hj (Nat.not_lt_zero _)
    · rw [List.find?_cons_of_neg _ hx] at h
      obtain ⟨hpa, i, hi, hfirst⟩ := find?_first xs a h
      refine ⟨hpa, ⟨i.val + 1, Nat.succ_lt_succ i.isLt⟩, hi, ?_⟩
      intro j hj
      match j with
      | ⟨0, _⟩ => simpa using hx
      | ⟨k + 1, hk⟩ =>
        exact hfirst ⟨k, Nat.lt_of_succ_lt_succ hk⟩ (Nat.lt_of_succ_lt_succ hj)

/-- The enumeration of the unsigned path is the Cartesian product of
the message variants, the parent permutations and the author and
committer renderings, serialized by `get_git_file_unsigned`. -/
theorem unsignedVariants_mem (t : Option String) (ms : List String)
    (ps : List (List String)) (as cs : List String) (v : String) :
    v ∈ unsignedVariants t ms ps as cs ↔
      ∃ m ∈ ms, ∃ p ∈ ps, ∃ a ∈ as, ∃ cm ∈ cs,
        v = getGitFileUnsignedWith t p a cm m := by
  unfold unsignedVariants
  simp only [List.mem_flatten, List.mem_map]
  constructor
  · rintro ⟨l1, ⟨m, hm, rfl⟩, hv1⟩
    rw [List.mem_flatten] at hv1
    obtain ⟨l2, hl2, hv2⟩ := hv1
    rw [List.mem_map] at hl2
    obtain ⟨p, hp, rfl⟩ := hl2
    rw [List.mem_flatten] at hv2
    obtain ⟨l3, hl3, hv3⟩ := hv2
    rw [List.mem_map] at hl3
    obtain ⟨a, ha, rfl⟩ := hl3
    rw [List.mem_map] at hv3
    obtain ⟨cm, hcm, rfl⟩ := hv3
    exact ⟨m, hm, p, hp, a, ha, cm, hcm, rfl⟩
  · rintro ⟨m, hm, p, hp, a, ha, cm, hcm, rfl⟩
    refine ⟨_, ⟨m, hm, rfl⟩, ?_⟩
    rw [List.mem_flatten]
    refine ⟨_, List.mem_map_of_mem _ hp, ?_⟩
    rw [List.mem_flatten]
    refine ⟨_, List.mem_map_of_mem _ ha, ?_⟩
    exact List.mem_map_of_mem _ hcm

/-- C1: for an unsigned commit in state `FOUND` (with its message
present and both person renderings available), `Commit.git_file`
searches the Cartesian-product enumeration (message trailer variants
after caret-escape substitution × parent permutations × author
renderings × committer renderings): any returned serialization has a
computed git id equal to the commit's sha and is the first enumerated
variant that matches; when no enumerated variant matches, the result
is `InvalidShaError`. -/
theorem commitGitFile_unsigned_spec (env : PyEnv) (c : Commit) (msg : String)
    (authors committers : List String)
    (hst : c.status = .found)
    (hsig : c.signature = none ∨
      ∃ sig, c.signature = some sig ∧ sig.status = CommitSignatureStatus.unsigned)
    (hmsg : c.message = some msg)
    (ha : generateAuthorOrCommitterStr env c.author = .ok authors)
    (hcm : generateAuthorOrCommitterStr env c.committer = .ok committers) :
    (∀ v, commitGitFile env c = .ok v →
      calculateGitSha env (utf8Bytes v) "commit" = c.sha ∧
      (∃ m ∈ applyCaretEscapes msg [msg ++ "\n", msg, msg ++ "\n\n"],
       ∃ p ∈ pyPermutations c.parents, ∃ a ∈ authors, ∃ cm ∈ committers,
        v = getGitFileUnsignedWith c.tree p a cm m) ∧
      (∃ i : Fin (unsignedVariants c.tree
          (applyCaretEscapes msg [msg ++ "\n", msg, msg ++ "\n\n"])
          (pyPermutations c.parents) authors committers).length,
        (unsignedVariants c.tree
          (applyCaretEscapes msg [msg ++ "\n", msg, msg ++ "\n\n"])
          (pyPermutations c.parents) authors committers).get i = v ∧
        ∀ j, j.val < i.val →
          calculateGitSha env (utf8Bytes ((unsignedVariants c.tree
            (applyCaretEscapes msg [msg ++ "\n", msg, msg ++ "\n\n"])
            (pyPermutations c.parents) authors committers).get j)) "commit" ≠ c.sha)) ∧
    ((∀ v ∈ unsignedVariants c.tree
        (applyCaretEscapes msg [msg ++ "\n", msg, msg ++ "\n\n"])
        (pyPermutations c.parents) authors committers,
      calculateGitSha env (utf8Bytes v) "commit" ≠ c.sha) →
      commitGitFile env c = .error .invalidSha) := by
  have hred : commitGitFile env c =
      commitGitFile.commitUnsignedPath env c := by
    rcases hsig with hs | ⟨sig, hs, hsu⟩
    · simp [commitGitFile, hst, hs]
    · simp [commitGitFile, hst, hs, hsu]
  have hpath : commitGitFile.commitUnsignedPath env c =
      match (unsignedVariants c.tree
          (applyCaretEscapes msg [msg ++ "\n", msg, msg ++ "\n\n"])
          (pyPermutations c.parents) authors committers).find?
          (fun v => calculateGitSha env (utf8Bytes v) "commit" == c.sha) with
      | some v => .ok v
      | none => .error .invalidSha := by
    unfold commitGitFile.commitUnsignedPath
    rw [hmsg]
    simp only [ha, hcm]
    rfl
  constructor
  · intro v hv
    rw [hred, hpath] at hv
    cases hfind : (unsignedVariants c.tree
        (applyCaretEscapes msg [msg ++ "\n", msg, msg ++ "\n\n"])
        (pyPermutations c.parents) authors committers).find?
        (fun v => calculateGitSha env (utf8Bytes v) "commit" == c.sha) with
    | none => rw [hfind] at hv; cases hv
    | some w =>
      rw [hfind] at hv
      cases hv
      obtain ⟨hpv, i, hi, hfirst⟩ := find?_first _ _ hfind
      have hsha : calculateGitSha env (utf8Bytes v) "commit" = c.sha := by
        simpa using hpv
      refine ⟨hsha, ?_, ⟨i, hi, ?_⟩⟩
      · rw [← unsignedVariants_mem]
        have : v ∈ (unsignedVariants c.tree
            (applyCaretEscapes msg [msg ++ "\n", msg, msg ++ "\n\n"])
            (pyPermutations c.parents) authors committers) := by
          rw [← hi]
          exact List.get_mem _ i.val i.isLt
        exact this
      · intro j hj
        have := hfirst j hj
        simpa using this
  · intro hnone
    rw [hred, hpath]
    have : (unsignedVariants c.tree
        (applyCaretEscapes msg [msg ++ "\n", msg, msg ++ "\n\n"])
        (pyPermutations c.parents) authors committers).find?
        (fun v => calculateGitSha env (utf8Bytes v) "commit" == c.sha) = none := by
      rw [List.find?_eq_none]
      intro v hv
      simpa using hnone v hv
    rw [this]

/-- Witness for C1: a concrete unsigned FOUND commit under a hash
function that accepts everything (first enumerated variant returned)
and under one that accepts nothing (`InvalidShaError`). -/
theorem commitGitFile_unsigned_spec_witness :
    let p : AuthorOrCommitter := ⟨"d", "e", "n"⟩
    let c : Commit := { sha := "42", status := .found, parents := [], children := [],
                        tree := some "T", author := some p, committer := some p,
                        message := some "x", signature := none }
    let envYes : PyEnv := ⟨fun _ => "42", fun _ => some (0, "+0000"), fun _ => none⟩
    let envNo : PyEnv := ⟨fun _ => "zz", fun _ => some (0, "+0000"), fun _ => none⟩
    let v := "tree T\nauthor n <e> 0 +0000\ncommitter n <e> 0 +0000\n\nx\n"
    calculateGitSha envYes (utf8Bytes v) "commit" = c.sha ∧
    commitGitFile envNo c = .error .invalidSha := by
  intro p c envYes envNo v
  constructor
  · have h := commitGitFile_unsigned_spec envYes c "x"
      ["n <e> 0 +0000"] ["n <e> 0 +0000"] rfl (Or.inl rfl) rfl rfl rfl
    exact (h.1 v rfl).1
  · have h := commitGitFile_unsigned_spec envNo c "x"
      ["n <e> 0 +0000"] ["n <e> 0 +0000"] rfl (Or.inl rfl) rfl rfl rfl
    refine h.2 ?_
    intro w hw
    have hzz : ("zz" : String) ≠ "42" := by decide
    exact hzz

/-- Model of `utils.create_object`: the external
`git hash-object --stdin -w` call computes the git id of the data
(exactly `calculate_git_sha(data, object_type)`) and the function
raises `InvalidShaError` unless it equals the original sha. -/
def createObject (env : PyEnv) (data : List Nat) (objectType : String)
    (originalSha : String) : Except PyError Unit :=
  if calculateGitSha env data objectType ≠ originalSha then .error .invalidSha
  else .ok ()

/-- Outcome of the per-commit body of the persistence loop in
`__main__.main`: the object was created through `git hash-object`, or
it was forged (written raw into the object store with the given
content). -/
inductive MainAction where
  | created
  | forged (content : String)
  deriving DecidableEq, Repr

/-- The forged content computed inside the `except InvalidShaError`
handler of `__main__.main`: `get_git_file_unsigned()` with defaults,
falling back on `ValueError` to passing the raw date strings as the
author and committer renderings. -/
def forgeContent (env : PyEnv) (c : Commit) : Except PyError String :=
  match getGitFileUnsigned env c with
  | .ok content => .ok content
  | .error .valueError =>
    match c.author, c.committer with
    | some a, some cm => getGitFileUnsigned env c none (some a.date) (some cm.date)
    | _, _ => .error .attributeError
  | .error e => .error e

/-- The body of the commit persistence loop of `__main__.main` (one
`FOUND` commit): `create_object(commit.git_file().encode(), "commit",
commit.sha)` with `except InvalidShaError` invoking the forgery path,
for every commit regardless of its signature status. -/
def handleFoundCommit (env : PyEnv) (c : Commit) : Except PyError MainAction :=
  match commitGitFile env c with
  | .ok content =>
    match createObject env (utf8Bytes content) "commit" c.sha with
    | .ok _ => .ok .created
    | .error .invalidSha =>
      match forgeContent env c with
      | .ok fc => .ok (.forged fc)
      | .error e => .error e
    | .error e => .error e
  | .error .invalidSha =>
    match forgeContent env c with
    | .ok fc => .ok (.forged fc)
    | .error e => .error e
  | .error e => .error e

/-- C3 counterexample: a signed commit (status `VALID`) whose signed
reconstruction does not match its sha: `Commit.git_file` raises
`InvalidShaError`, and the orchestrator's loop body nevertheless
forges it instead of re-raising — the claim that forgery is invoked
only for unsigned commits is false. -/
theorem handleFoundCommit_forges_signed_counterexample :
    let p : AuthorOrCommitter := ⟨"d", "e", "n"⟩
    let cs : Commit := { sha := "42", status := .found, parents := [], children := [],
                         tree := some "T", author := some p, committer := some p,
                         message := some "m",
                         signature := some ⟨CommitSignatureStatus.valid, some "SIG",
                           some "tree T\ncommitter C\n\nm"⟩ }
    let env : PyEnv := ⟨fun _ => "zz", fun _ => some (0, "+0000"), fun _ => none⟩
    (∃ sig, cs.signature = some sig ∧ sig.status ≠ CommitSignatureStatus.unsigned) ∧
    commitGitFile env cs = .error .invalidSha ∧
    handleFoundCommit env cs =
      .ok (.forged "tree T\nauthor n <e> 0 +0000\ncommitter n <e> 0 +0000\n\nm") := by
  intro p cs env
  refine ⟨⟨_, rfl, by decide⟩, rfl, rfl⟩

theorem authorOrCommitterStr_error (env : PyEnv) (q : AuthorOrCommitter) (e : PyError)
    (h : authorOrCommitterStr env q = .error e) : e = .valueError := by
  unfold authorOrCommitterStr at h
  cases hf : env.fromiso q.date with
  | none => rw [hf] at h; cases h; rfl
  | some v => rw [hf] at h; cases h

theorem resolvePersonArg_error (env : PyEnv) (arg : Option String)
    (person : Option AuthorOrCommitter) (e : PyError)
    (h : resolvePersonArg env arg person = .error e) : e = .valueError := by
  unfold resolvePersonArg at h
  cases arg with
  | some s => cases h
  | none =>
    cases person with
    | none => cases h
    | some p => exact authorOrCommitterStr_error env p e h

theorem getGitFileUnsigned_error (env : PyEnv) (c : Commit) (ps : Option (List String))
    (a cm m : Option String) (e : PyError)
    (h : getGitFileUnsigned env c ps a cm m = .error e) : e = .valueError := by
  unfold getGitFileUnsigned at h
  cases hra : resolvePersonArg env a c.author with
  | error ea =>
    rw [hra] at h
    cases h
    exact resolvePersonArg_error env a c.author e hra
  | ok sa =>
    rw [hra] at h
    cases hrc : resolvePersonArg env cm c.committer with
    | error ec =>
      rw [hrc] at h
      cases h
      exact resolvePersonArg_error env cm c.committer e hrc
    | ok sc =>
      rw [hrc] at h
      cases h

theorem forgeContent_error (env : PyEnv) (c : Commit) (e : PyError)
    (h : forgeContent env c = .error e) : e = .valueError ∨ e = .attributeError := by
  unfold forgeContent at h
  cases hgu : getGitFileUnsigned env c with
  | ok w => rw [hgu] at h; cases h
  | error e4 =>
    rw [hgu] at h
    have he4 := getGitFileUnsigned_error env c none none none none e4 hgu
    subst he4
    cases hau : c.author with
    | none => rw [hau] at h; cases h; right; rfl
    | some a =>
      cases hcmm : c.committer with
      | none => rw [hau, hcmm] at h; cases h; right; rfl
      | some cm =>
        rw [hau, hcmm] at h
        left
        exact getGitFileUnsigned_error env c none (some a.date) (some cm.date) none e h

theorem createObject_error (env : PyEnv) (data : List Nat) (t sha : String) (e : PyError)
    (h : createObject env data t sha = .error e) : e = .invalidSha := by
  unfold createObject at h
  by_cases hc : calculateGitSha env data t ≠ sha
  · rw [if_pos hc] at h; cases h; rfl
  · rw [if_neg hc] at h; cases h

/-- C3 amended: when the signed reconstruction of a signed commit
disagrees with the stored sha, `InvalidShaError` is signalled by
`Commit.git_file`; however the orchestrator invokes the forgery
fallback for every commit whose reconstruction raises
`InvalidShaError`, signed or unsigned (the loop body never re-raises
`InvalidShaError`). -/
theorem handleFoundCommit_amended (env : PyEnv) (c : Commit) :
    (∀ sig payload signature, c.status = .found → c.signature = some sig →
      sig.status ≠ CommitSignatureStatus.unsigned → sig.payload = some payload →
      sig.signature = some signature →
      calculateGitSha env (utf8Bytes (buildSigned payload signature)) "commit" ≠ c.sha →
      commitGitFile env c = .error .invalidSha) ∧
    (∀ content, commitGitFile env c = .error .invalidSha →
      forgeContent env c = .ok content →
      handleFoundCommit env c = .ok (.forged content)) ∧
    (∀ e, handleFoundCommit env c = .error e → e ≠ .invalidSha) := by
  refine ⟨?_, ?_, ?_⟩
  · intro sig payload signature hst hsig hsu hpl hsg hne
    simp only [commitGitFile, hst, hsig, hpl, hsg]
    rw [if_neg (by simp), if_pos hsu, if_pos hne]
  · intro content hfile hforge
    unfold handleFoundCommit
    rw [hfile, hforge]
  · intro e he
    unfold handleFoundCommit at he
    cases hfile : commitGitFile env c with
    | ok content =>
      simp only [hfile] at he
      cases hco : createObject env (utf8Bytes content) "commit" c.sha with
      | ok u => simp only [hco] at he; exact Except.noConfusion he
      | error e2 =>
        have he2 := createObject_error env (utf8Bytes content) "commit" c.sha e2 hco
        subst he2
        simp only [hco] at he
        cases hfo : forgeContent env c with
        | ok fc => simp only [hfo] at he; exact Except.noConfusion he
        | error e3 =>
          simp only [hfo, Except.error.injEq] at he
          subst he
          rcases forgeContent_error env c e3 hfo with rfl | rfl <;> decide
    | error e1 =>
      simp only [hfile] at he
      cases e1 with
      | invalidSha =>
        cases hfo : forgeContent env c with
        | ok fc => simp only [hfo] at he; exact Except.noConfusion he
        | error e3 =>
          simp only [hfo, Except.error.injEq] at he
          subst he
          rcases forgeContent_error env c e3 hfo with rfl | rfl <;> decide
      | valueError => simp only [Except.error.injEq] at he; subst he; decide
      | typeError => simp only [Except.error.injEq] at he; subst he; decide
      | attributeError => simp only [Except.error.injEq] at he; subst he; decide
      | keyError => simp only [Except.error.injEq] at he; subst he; decide
      | repositoryError => simp only [Except.error.injEq] at he; subst he; decide
      | generic => simp only [Except.error.injEq] at he; subst he; decide

/-- Witness for the amended C3 at a concrete signed commit whose
reconstruction fails. -/
theorem handleFoundCommit_amended_witness :
    let p : AuthorOrCommitter := ⟨"d", "e", "n"⟩
    let cs : Commit := { sha := "42", status := .found, parents := [], children := [],
                         tree := some "T", author := some p, committer := some p,
                         message := some "m",
                         signature := some ⟨CommitSignatureStatus.valid, some "SIG",
                           some "tree T\ncommitter C\n\nm"⟩ }
    let env : PyEnv := ⟨fun _ => "zz", fun _ => some (0, "+0000"), fun _ => none⟩
    commitGitFile env cs = .error .invalidSha ∧
    handleFoundCommit env cs =
      .ok (.forged "tree T\nauthor n <e> 0 +0000\ncommitter n <e> 0 +0000\n\nm") := by
  intro p cs env
  have h := handleFoundCommit_amended env cs
  have h1 : commitGitFile env cs = .error .invalidSha :=
    h.1 ⟨CommitSignatureStatus.valid, some "SIG", some "tree T\ncommitter C\n\nm"⟩
      "tree T\ncommitter C\n\nm" "SIG" rfl rfl (by decide) rfl rfl
      (by
        have : ("zz" : String) ≠ "42" := by decide
        exact this)
  exact ⟨h1, h.2.1 _ h1 rfl⟩

/-- Insertion-order model of building a Python `set` from an iterable
(membership is what matters to the claims). -/
def pySet (l : List String) : List String :=
  l.foldl (fun acc s => if s ∈ acc then acc else acc ++ [s]) []

/-- `utils.LocalObjectsHashes` (constructed as
`LocalObjectsHashes(commits, blobs, trees, tags)`). -/
structure LocalObjectsHashes where
  commits : List String
  blobs : List String
  trees : List String
  tags : List String
  deriving Repr

/-- The all-zero "no parent" sha discarded by the GitHub aggregator. -/
def zeroSha : String := "0000000000000000000000000000000000000000"

/-- `Github.__get_dangling_commits_hashes`: the `.before`/`.after`
activity values and the `.base.sha`/`.head.sha`/`.merge_commit` pull
request values (each already split into lines), with the zero sha and
the empty string discarded from each set, each set subtracted by
`local_commits` only, and the two difference sets unioned. -/
def githubDanglingHashes (activityLines prLines localCommits : List String) :
    List String :=
  let activityCommits := (pySet activityLines).filter
    (fun s => !(s == zeroSha) && !(s == ""))
  let danglingActivityCommits := activityCommits.filter (fun s => !localCommits.contains s)
  let pullRequestCommits := (pySet prLines).filter
    (fun s => !(s == zeroSha) && !(s == ""))
  let danglingPrCommits := pullRequestCommits.filter (fun s => !localCommits.contains s)
  danglingPrCommits ++ danglingActivityCommits

/-- One GitLab `/events?action=pushed` record: `none` when the event
carries no `push_data`, else the `commit_from` and `commit_to`
values. -/
def GitlabEvent : Type := Option (Option String × Option String)

/-- One GitLab merge request record:
(`sha`, `merge_commit_sha`, `squash_commit_sha`). -/
def GitlabMr : Type := Option String × Option String × Option String

/-- `Gitlab.__get_dangling_commits_hashes`: union of the pushed-event
hashes, the merge-request hashes and the `/repository/commits` hashes
(ids and parent ids), each subtracted by `LocalInventory.commits` and
`LocalInventory.tags`; no zero-sha or empty-string filtering is
performed. -/
def gitlabDanglingHashes (events : List GitlabEvent) (mrs : List GitlabMr)
    (commits : List (String × List String)) (localObjectHashes : LocalObjectsHashes) :
    List String :=
  let addOpt := fun (acc : List String) (o : Option String) =>
    match o with
    | some s => if s ∈ acc then acc else acc ++ [s]
    | none => acc
  let eventsCommits := events.foldl
    (fun acc ev =>
      match ev with
      | none => acc
      | some (cf, ct) => addOpt (addOpt acc cf) ct) []
  let danglingEventCommits := (eventsCommits.filter
    (fun s => !localObjectHashes.commits.contains s)).filter
    (fun s => !localObjectHashes.tags.contains s)
  let mergeCommits := mrs.foldl
    (fun acc mr => addOpt (addOpt (addOpt acc mr.1) mr.2.1) mr.2.2) []
  let danglingMrCommits := (mergeCommits.filter
    (fun s => !localObjectHashes.commits.contains s)).filter
    (fun s => !localObjectHashes.tags.contains s)
  let commitsCommits := commits.foldl
    (fun acc cc => cc.2.foldl (fun acc2 pp => addOpt acc2 (some pp)) (addOpt acc (some cc.1))) []
  let danglingCommitsCommits := (commitsCommits.filter
    (fun s => !localObjectHashes.commits.contains s)).filter
    (fun s => !localObjectHashes.tags.contains s)
  danglingMrCommits ++ danglingEventCommits ++ danglingCommitsCommits

/-- C6 counterexample: the GitHub aggregator never subtracts
`LocalInventory.tags`, so a candidate sha equal to a local tag hash is
returned: the claimed disjointness from tags fails. -/
theorem githubDanglingHashes_tags_counterexample :
    let tags : List String := ["aaaaaaaaaaaaaaaaaaaaaaaaaaaaaaaaaaaaaaaa"]
    "aaaaaaaaaaaaaaaaaaaaaaaaaaaaaaaaaaaaaaaa" ∈
      githubDanglingHashes ["aaaaaaaaaaaaaaaaaaaaaaaaaaaaaaaaaaaaaaaa"] [] [] ∧
    "aaaaaaaaaaaaaaaaaaaaaaaaaaaaaaaaaaaaaaaa" ∈ tags := by
  constructor <;> decide

/-- C6 amended: the GitHub aggregator's output is disjoint from
`LocalInventory.commits` and contains neither the all-zero sha nor the
empty string (but tags are not subtracted); the GitLab aggregator's
output is disjoint from `LocalInventory.commits` and
`LocalInventory.tags` (but the zero sha and the empty string are not
filtered). -/
theorem danglingHashes_amended :
    (∀ activityLines prLines localCommits s,
      s ∈ githubDanglingHashes activityLines prLines localCommits →
      s ∉ localCommits ∧ s ≠ zeroSha ∧ s ≠ "") ∧
    (∀ events mrs commits localObjectHashes s,
      s ∈ gitlabDanglingHashes events mrs commits localObjectHashes →
      s ∉ localObjectHashes.commits ∧ s ∉ localObjectHashes.tags) := by
  constructor
  · intro activityLines prLines localCommits s hs
    unfold githubDanglingHashes at hs
    rw [List.mem_append] at hs
    have hboth : (!(s == zeroSha) && !(s == "")) = true ∧ (!localCommits.contains s) = true := by
      rcases hs with hs | hs <;>
        { rw [List.mem_filter] at hs
          obtain ⟨hs1, hs2⟩ := hs
          rw [List.mem_filter] at hs1
          exact ⟨hs1.2, hs2⟩ }
    obtain ⟨h1, h2⟩ := hboth
    simp at h1 h2
    exact ⟨h2, h1.1, h1.2⟩
  · intro events mrs commits localObjectHashes s hs
    unfold gitlabDanglingHashes at hs
    rw [List.mem_append, List.mem_append] at hs
    have hboth : (!localObjectHashes.commits.contains s) = true ∧
        (!localObjectHashes.tags.contains s) = true := by
      rcases hs with (hs | hs) | hs <;>
        { rw [List.mem_filter] at hs
          obtain ⟨hs1, hs2⟩ := hs
          rw [List.mem_filter] at hs1
          exact ⟨hs1.2, hs2⟩ }
    obtain ⟨h1, h2⟩ := hboth
    simp at h1 h2
    exact ⟨h1, h2⟩

/-- Witness for the amended C6 at concrete server data. -/
theorem danglingHashes_amended_witness :
    ("bb" ∉ ["cc"] ∧ "bb" ≠ zeroSha ∧ "bb" ≠ "") ∧
    ("dd" ∉ ["cc"] ∧ "dd" ∉ ["ee"]) := by
  constructor
  · exact danglingHashes_amended.1 ["bb", zeroSha, ""] [] ["cc"] "bb" (by decide)
  · exact danglingHashes_amended.2 [some (some "dd", none)] [] []
      ⟨["cc"], [], [], ["ee"]⟩ "dd" (by decide)

/-- The `RepositoryError` kinds that reach `__big_graphql_query`:
retry exhaustion (`"Maximum attempts to perform query reached"`), the
null-object answer (`"Invalid answer"`), and any other message (such
as the authentication guidance), distinguished by the string
comparison in the handler. -/
inductive QueryError where
  | maxAttempts
  | invalidAnswer
  | other
  deriving DecidableEq, Repr

/-- Lookup in a response dict. -/
def dictGet {V : Type} (d : List (String × Option V)) (k : String) :
    Option (Option V) :=
  (d.find? (fun kv => kv.1 == k)).map (fun kv => kv.2)

/-- Python `dict.update`: existing keys keep their position with the
new value; new keys are appended in the right-hand dict's order. -/
def updateDict {V : Type} (d1 d2 : List (String × Option V)) :
    List (String × Option V) :=
  d1.map (fun kv =>
    match dictGet d2 kv.1 with
    | some v => (kv.1, v)
    | none => kv) ++
  d2.filter (fun kv => (dictGet d1 kv.1).isNone)

/-- `Github.__big_graphql_query` over an abstract batched query: on a
`MaxAttempts` failure, or on a null object value when
`retry_on_none_object` is set (raised and caught as
`"Invalid answer"`, with the parsed dict retained), split the sha list
in half, recurse on each half and merge with `dict.update`; re-raise
when the half is empty (batch of size 1); any other `RepositoryError`
re-raises without splitting. -/
def githubBigGraphqlQuery {V : Type}
    (query : List String → Except QueryError (List (String × Option V)))
    (retryOnNoneObject : Bool) (objectsSha : List String) :
    Except QueryError (List (String × Option V)) :=
  match query objectsSha with
  | .ok stdout =>
    if retryOnNoneObject && stdout.any (fun kv => kv.2.isNone) then
      if _h : objectsSha.length / 2 = 0 then .error .invalidAnswer
      else
        match githubBigGraphqlQuery query retryOnNoneObject
            (objectsSha.take (objectsSha.length / 2)) with
        | .error e => .error e
        | .ok r1 =>
          match githubBigGraphqlQuery query retryOnNoneObject
              (objectsSha.drop (objectsSha.length / 2)) with
          | .error e => .error e
          | .ok r2 => .ok (updateDict (updateDict stdout r1) r2)
    else .ok stdout
  | .error .maxAttempts =>
    if _h : objectsSha.length / 2 = 0 then .error .maxAttempts
    else
      match githubBigGraphqlQuery query retryOnNoneObject
          (objectsSha.take (objectsSha.length / 2)) with
      | .error e => .error e
      | .ok r1 =>
        match githubBigGraphqlQuery query retryOnNoneObject
            (objectsSha.drop (objectsSha.length / 2)) with
        | .error e => .error e
        | .ok r2 => .ok (updateDict (updateDict [] r1) r2)
  | .error .invalidAnswer =>
    if _h : objectsSha.length / 2 = 0 then .error .invalidAnswer
    else
      match githubBigGraphqlQuery query retryOnNoneObject
          (objectsSha.take (objectsSha.length / 2)) with
      | .error e => .error e
      | .ok r1 =>
        match githubBigGraphqlQuery query retryOnNoneObject
            (objectsSha.drop (objectsSha.length / 2)) with
        | .error e => .error e
        | .ok r2 => .ok (updateDict (updateDict [] r1) r2)
  | .error .other => .error .other
termination_by objectsSha.length
decreasing_by
  all_goals simp only [List.length_take, List.length_drop]
  all_goals omega

/-- `Gitlab.__big_graphql_query` over an abstract query: every
`RepositoryError` triggers the bisection; an empty half (batch of
size 1) re-raises. -/
def gitlabBigGraphqlQuery {V : Type}
    (query : List String → Except QueryError (List (String × Option V)))
    (objectsSha : List String) :
    Except QueryError (List (String × Option V)) :=
  match query objectsSha with
  | .ok stdout => .ok stdout
  | .error e =>
    if _h : objectsSha.length / 2 = 0 then .error e
    else
      match gitlabBigGraphqlQuery query (objectsSha.take (objectsSha.length / 2)) with
      | .error e2 => .error e2
      | .ok r1 =>
        match gitlabBigGraphqlQuery query (objectsSha.drop (objectsSha.length / 2)) with
        | .error e2 => .error e2
        | .ok r2 => .ok (updateDict (updateDict [] r1) r2)
termination_by objectsSha.length
decreasing_by
  all_goals simp only [List.length_take, List.length_drop]
  all_goals omega

theorem githubStep_maxAttempts {V : Type}
    (query : List String → Except QueryError (List (String × Option V)))
    (retry : Bool) (shas : List String)
    (hq : query shas = .error .maxAttempts) (hn : 2 ≤ shas.length) :
    githubBigGraphqlQuery query retry shas =
      match githubBigGraphqlQuery query retry (shas.take (shas.length / 2)) with
      | .error e => .error e
      | .ok r1 =>
        match githubBigGraphqlQuery query retry (shas.drop (shas.length / 2)) with
        | .error e => .error e
        | .ok r2 => .ok (updateDict (updateDict [] r1) r2) := by
  rw [githubBigGraphqlQuery]
  simp only [hq]
  rw [dif_neg (by omega)]

theorem githubStep_nullValue {V : Type}
    (query : List String → Except QueryError (List (String × Option V)))
    (shas : List String) (stdout : List (String × Option V))
    (hq : query shas = .ok stdout)
    (hnull : stdout.any (fun kv => kv.2.isNone) = true) (hn : 2 ≤ shas.length) :
    githubBigGraphqlQuery query true shas =
      match githubBigGraphqlQuery query true (shas.take (shas.length / 2)) with
      | .error e => .error e
      | .ok r1 =>
        match githubBigGraphqlQuery query true (shas.drop (shas.length / 2)) with
        | .error e => .error e
        | .ok r2 => .ok (updateDict (updateDict stdout r1) r2) := by
  rw [githubBigGraphqlQuery]
  simp only [hq, hnull, Bool.true_and, if_pos]
  rw [dif_neg (by omega)]

theorem githubStep_ok {V : Type}
    (query : List String → Except QueryError (List (String × Option V)))
    (retry : Bool) (shas : List String) (stdout : List (String × Option V))
    (hq : query shas = .ok stdout)
    (hnull : (retry && stdout.any (fun kv => kv.2.isNone)) = false) :
    githubBigGraphqlQuery query retry shas = .ok stdout := by
  rw [githubBigGraphqlQuery]
  simp only [hq, hnull]
  rw [if_neg (by simp)]

theorem gitlabStep_error {V : Type}
    (query : List String → Except QueryError (List (String × Option V)))
    (shas : List String) (e : QueryError)
    (hq : query shas = .error e) (hn : 2 ≤ shas.length) :
    gitlabBigGraphqlQuery query shas =
      match gitlabBigGraphqlQuery query (shas.take (shas.length / 2)) with
      | .error e2 => .error e2
      | .ok r1 =>
        match gitlabBigGraphqlQuery query (shas.drop (shas.length / 2)) with
        | .error e2 => .error e2
        | .ok r2 => .ok (updateDict (updateDict [] r1) r2) := by
  rw [gitlabBigGraphqlQuery]
  simp only [hq]
  rw [dif_neg (by omega)]

/-- The bisection absorbs batch failures: when the underlying query
only ever fails with `MaxAttempts` and every singleton batch succeeds
with no null value, `__big_graphql_query` succeeds. -/
theorem githubBigGraphqlQuery_absorbs {V : Type}
    (query : List String → Except QueryError (List (String × Option V)))
    (retry : Bool) :
    ∀ n (shas : List String), shas.length = n → shas ≠ [] →
    (∀ batch, query batch = .error .maxAttempts ∨ ∃ d, query batch = .ok d) →
    (∀ sha ∈ shas, ∃ d, query [sha] = .ok d ∧
      (retry = true → d.any (fun kv => kv.2.isNone) = false)) →
    ∃ d, githubBigGraphqlQuery query retry shas = .ok d := by
  intro n
  induction n using Nat.strong_induction_on with
  | _ n ih =>
    intro shas hlen hne hshape hsingle
    match hn1 : n, hlen with
    | 0, hlen => exact absurd (List.length_eq_zero.mp hlen) hne
    | 1, hlen =>
      obtain ⟨sha, rfl⟩ := List.length_eq_one.mp hlen
      obtain ⟨d, hd, hdnone⟩ := hsingle sha (by simp)
      refine ⟨d, githubStep_ok query retry [sha] d hd ?_⟩
      cases retry with
      | false => rfl
      | true => simp [hdnone rfl]
    | (m + 2), hlen =>
      have hn : 2 ≤ shas.length := by omega
      have htake : ∃ d, githubBigGraphqlQuery query retry
          (shas.take (shas.length / 2)) = .ok d := by
        refine ih (shas.take (shas.length / 2)).length ?_ _ rfl ?_ hshape ?_
        · simp only [List.length_take]; omega
        · have : 0 < (shas.take (shas.length / 2)).length := by
            simp only [List.length_take]; omega
          exact List.ne_nil_of_length_pos this
        · intro sha hsha
          exact hsingle sha (List.take_subset _ _ hsha)
      have hdrop : ∃ d, githubBigGraphqlQuery query retry
          (shas.drop (shas.length / 2)) = .ok d := by
        refine ih (shas.drop (shas.length / 2)).length ?_ _ rfl ?_ hshape ?_
        · simp only [List.length_drop]; omega
        · have : 0 < (shas.drop (shas.length / 2)).length := by
            simp only [List.length_drop]; omega
          exact List.ne_nil_of_length_pos this
        · intro sha hsha
          exact hsingle sha (List.drop_subset _ _ hsha)
      obtain ⟨r1, hr1⟩ := htake
      obtain ⟨r2, hr2⟩ := hdrop
      rcases hshape shas with hq | ⟨stdout, hq⟩
      · refine ⟨updateDict (updateDict [] r1) r2, ?_⟩
        rw [githubStep_maxAttempts query retry shas hq hn, hr1, hr2]
      · by_cases hnull : (retry && stdout.any (fun kv => kv.2.isNone)) = true
        · have hretry : retry = true := by
            cases retry with
            | false => simp at hnull
            | true => rfl
          subst hretry
          have hany : stdout.any (fun kv => kv.2.isNone) = true := by
            simpa using hnull
          refine ⟨updateDict (updateDict stdout r1) r2, ?_⟩
          rw [githubStep_nullValue query shas stdout hq hany hn, hr1, hr2]
        · exact ⟨stdout, githubStep_ok query retry shas stdout hq
            (Bool.not_eq_true _ ▸ (by simpa using hnull))⟩

/-- C7: on a batched graphql failure (retry exhaustion), or on a null
object value while `retry_on_none_object` is set, the client splits
the sha list in half, recurses on each half and merges the two result
maps (`dict.update`); a failing half propagates; a batch of size 1
that still fails is final — the error propagates instead of splitting
further. GitHub and GitLab variants; in addition, when every singleton
batch succeeds the bisection absorbs all batch failures. -/
theorem bigGraphqlQuery_bisection_spec {V : Type} :
    (∀ (query : List String → Except QueryError (List (String × Option V)))
       (retry : Bool) (shas : List String),
      query shas = .error .maxAttempts → 2 ≤ shas.length →
      (∀ r1 r2,
        githubBigGraphqlQuery query retry (shas.take (shas.length / 2)) = .ok r1 →
        githubBigGraphqlQuery query retry (shas.drop (shas.length / 2)) = .ok r2 →
        githubBigGraphqlQuery query retry shas =
          .ok (updateDict (updateDict [] r1) r2)) ∧
      (∀ e, githubBigGraphqlQuery query retry (shas.take (shas.length / 2)) = .error e →
        githubBigGraphqlQuery query retry shas = .error e)) ∧
    (∀ (query : List String → Except QueryError (List (String × Option V)))
       (shas : List String) (stdout : List (String × Option V)),
      query shas = .ok stdout → stdout.any (fun kv => kv.2.isNone) = true →
      2 ≤ shas.length →
      ∀ r1 r2,
        githubBigGraphqlQuery query true (shas.take (shas.length / 2)) = .ok r1 →
        githubBigGraphqlQuery query true (shas.drop (shas.length / 2)) = .ok r2 →
        githubBigGraphqlQuery query true shas =
          .ok (updateDict (updateDict stdout r1) r2)) ∧
    (∀ (query : List String → Except QueryError (List (String × Option V)))
       (retry : Bool) (sha : String),
      (query [sha] = .error .maxAttempts →
        githubBigGraphqlQuery query retry [sha] = .error .maxAttempts) ∧
      (∀ stdout, query [sha] = .ok stdout →
        stdout.any (fun kv => kv.2.isNone) = true →
        githubBigGraphqlQuery query true [sha] = .error .invalidAnswer)) ∧
    (∀ (query : List String → Except QueryError (List (String × Option V)))
       (retry : Bool) (shas : List String), shas ≠ [] →
      (∀ batch, query batch = .error .maxAttempts ∨ ∃ d, query batch = .ok d) →
      (∀ sha ∈ shas, ∃ d, query [sha] = .ok d ∧
        (retry = true → d.any (fun kv => kv.2.isNone) = false)) →
      ∃ d, githubBigGraphqlQuery query retry shas = .ok d) ∧
    (∀ (query : List String → Except QueryError (List (String × Option V)))
       (shas : List String) (e : QueryError),
      query shas = .error e → 2 ≤ shas.length →
      ∀ r1 r2,
        gitlabBigGraphqlQuery query (shas.take (shas.length / 2)) = .ok r1 →
        gitlabBigGraphqlQuery query (shas.drop (shas.length / 2)) = .ok r2 →
        gitlabBigGraphqlQuery query shas = .ok (updateDict (updateDict [] r1) r2)) ∧
    (∀ (query : List String → Except QueryError (List (String × Option V)))
       (sha : String) (e : QueryError),
      query [sha] = .error e → gitlabBigGraphqlQuery query [sha] = .error e) := by
  refine ⟨?_, ?_, ?_, ?_, ?_, ?_⟩
  · intro query retry shas hq hn
    constructor
    · intro r1 r2 hr1 hr2
      rw [githubStep_maxAttempts query retry shas hq hn, hr1, hr2]
    · intro e he
      rw [githubStep_maxAttempts query retry shas hq hn, he]
  · intro query shas stdout hq hnull hn r1 r2 hr1 hr2
    rw [githubStep_nullValue query shas stdout hq hnull hn, hr1, hr2]
  · intro query retry sha
    constructor
    · intro hq
      rw [githubBigGraphqlQuery]
      simp only [hq]
      rw [dif_pos (by simp)]
    · intro stdout hq hnull
      rw [githubBigGraphqlQuery]
      simp only [hq, hnull, Bool.true_and, if_pos]
      rw [dif_pos (by simp)]
  · intro query retry shas hne hshape hsingle
    exact githubBigGraphqlQuery_absorbs query retry shas.length shas rfl hne hshape hsingle
  · intro query shas e hq hn r1 r2 hr1 hr2
    rw [gitlabStep_error query shas e hq hn, hr1, hr2]
  · intro query sha e hq
    rw [gitlabBigGraphqlQuery]
    simp only [hq]
    rw [dif_pos (by simp)]

/-- Witness for C7: a query failing on batches of two but succeeding
on singletons bisects and merges; an always-failing query is final on
a singleton, for both clients. -/
theorem bigGraphqlQuery_bisection_spec_witness :
    let q2 : List String → Except QueryError (List (String × Option Nat)) :=
      fun batch => if 2 ≤ batch.length then .error .maxAttempts
        else .ok (batch.map (fun s => (s, some 1)))
    let qFail : List String → Except QueryError (List (String × Option Nat)) :=
      fun _ => .error .maxAttempts
    githubBigGraphqlQuery q2 false ["a", "b"] = .ok [("a", some 1), ("b", some 1)] ∧
    githubBigGraphqlQuery qFail false ["a"] = .error .maxAttempts ∧
    gitlabBigGraphqlQuery qFail ["a"] = .error .maxAttempts := by
  intro q2 qFail
  have h := @bigGraphqlQuery_bisection_spec Nat
  refine ⟨?_, ?_, ?_⟩
  · have h1 := (h.1 q2 false ["a", "b"] rfl (by decide)).1
      [("a", some 1)] [("b", some 1)]
      (githubStep_ok q2 false (["a", "b"].take (["a", "b"].length / 2))
        [("a", some 1)] rfl rfl)
      (githubStep_ok q2 false (["a", "b"].drop (["a", "b"].length / 2))
        [("b", some 1)] rfl rfl)
    rw [h1]
    rfl
  · exact (h.2.2.1 qFail false "a").1 rfl
  · exact h.2.2.2.2.2 qFail "a" .maxAttempts rfl

/-- The resolver's commit graph (`dangling_commits: dict[str, Commit]`)
as a partial map. -/
def Graph : Type := String → Option Commit

/-- `dangling_commits[key] = commit` (insert or overwrite). -/
def updateGraph (g : Graph) (k : String) (c : Commit) : Graph :=
  fun k2 => if k2 = k then some c else g k2

/-- The state of one sha in the graph. -/
def statusOf (g : Graph) (s : String) : Option CommitStatus :=
  (g s).map (fun c => c.status)

/-- Python `set.add` on the insertion-ordered list model. -/
def setAdd (l : List String) (s : String) : List String :=
  if s ∈ l then l else l ++ [s]

/-- `key.removeprefix("sha_")`. -/
def stripShaPrefix (s : String) : String :=
  if s.data.take 4 = ['s', 'h', 'a', '_'] then String.mk (s.data.drop 4) else s

/-- The parent loop shared by `Github.__get_dangling_commits` and
`Gitlab.__get_dangling_commits.handle_new_commit_info`: add the parent
to `commit.parents`; a parent present in the graph gains the commit as
a child and is promoted `UNKNOWN→INCOMPLETE` (any status other than
`UNKNOWN`, `INCOMPLETE`, `FOUND` raises `RepositoryError`); a parent
absent from the graph and not local is inserted as `INCOMPLETE` with
the commit as its only child. -/
def processParents (g : Graph) (sha : String) (localCommits : List String) :
    List String → Except PyError Graph
  | [] => .ok g
  | p :: rest =>
    match g sha with
    | none => .error .keyError
    | some cSha =>
      match updateGraph g sha { cSha with parents := setAdd cSha.parents p } p with
      | some cp =>
        if cp.status = CommitStatus.unknown then
          processParents
            (updateGraph (updateGraph g sha { cSha with parents := setAdd cSha.parents p }) p
              { cp with children := setAdd cp.children sha,
                        status := CommitStatus.incomplete })
            sha localCommits rest
        else if cp.status ≠ CommitStatus.found ∧ cp.status ≠ CommitStatus.incomplete then
          .error .repositoryError
        else
          processParents
            (updateGraph (updateGraph g sha { cSha with parents := setAdd cSha.parents p }) p
              { cp with children := setAdd cp.children sha })
            sha localCommits rest
      | none =>
        if p ∈ localCommits then
          processParents (updateGraph g sha { cSha with parents := setAdd cSha.parents p })
            sha localCommits rest
        else
          processParents
            (updateGraph (updateGraph g sha { cSha with parents := setAdd cSha.parents p }) p
              { sha := p, status := CommitStatus.incomplete, parents := [],
                children := [sha] })
            sha localCommits rest

/-- The graphql `signature` sub-object of one GitHub history node. -/
structure GithubSignatureInfo where
  state : String
  payload : Option String
  signatureText : Option String
  deriving Repr

/-- One node of the graphql `history(first: 10)` answer for a GitHub
commit. -/
structure GithubCommitInfo where
  oid : String
  treeOid : String
  signature : Option GithubSignatureInfo
  parentsTotalCount : Nat
  parentsNodes : List String
  message : String
  committer : AuthorOrCommitter
  author : AuthorOrCommitter
  deriving Repr

/-- Processing of one history node by
`Github.__get_dangling_commits` (lines 98-163): local commits are
skipped; non-retrieved parents raise; the node (which must already be
a graph key, else `KeyError`) is set to `FOUND` and populated; an
unknown signature state raises `RepositoryError`; then the parent loop
runs. The embedding returns the final graph on success (the Python
exceptions abort the whole resolver). -/
def githubProcessNode (localCommits : List String) (g : Graph)
    (info : GithubCommitInfo) : Except PyError Graph :=
  if info.oid ∈ localCommits then .ok g
  else if info.parentsNodes.length ≠ info.parentsTotalCount then .error .generic
  else
    match g info.oid with
    | none => .error .keyError
    | some cNode =>
      let sigResult : Except PyError (Option CommitSignature) :=
        match info.signature with
        | none => .ok (some ⟨CommitSignatureStatus.unsigned, none, none⟩)
        | some s =>
          match commitSignatureStatusOfString s.state with
          | none => .error .repositoryError
          | some st => .ok (some ⟨st, s.signatureText, s.payload⟩)
      match sigResult with
      | .error e => .error e
      | .ok sigv =>
        let c1 := { cNode with
          status := CommitStatus.found,
          tree := some info.treeOid,
          message := some info.message,
          author := some info.author,
          committer := some info.committer,
          signature := sigv }
        processParents (updateGraph g info.oid c1) info.oid localCommits
          info.parentsNodes

/-- Sequential processing of the history nodes of one record. -/
def githubProcessNodes (localCommits : List String) :
    Graph → List GithubCommitInfo → Except PyError Graph
  | g, [] => .ok g
  | g, info :: rest =>
    match githubProcessNode localCommits g info with
    | .error e => .error e
    | .ok g2 => githubProcessNodes localCommits g2 rest

/-- One resolver step of `Github.__get_dangling_commits`: a
`(commit_sha, fields)` item of the batched graphql answer. A null (or
empty) `fields` marks the queried sha `ERASED`; otherwise each history
node is processed in order. -/
def githubHandleRecord (g : Graph) (localCommits : List String) (key : String)
    (fields : Option (List GithubCommitInfo)) : Except PyError Graph :=
  let commitSha := stripShaPrefix key
  match fields with
  | none =>
    match g commitSha with
    | none => .error .keyError
    | some c => .ok (updateGraph g commitSha { c with status := CommitStatus.erased })
  | some nodes => githubProcessNodes localCommits g nodes

/-- One `/repository/commits/{sha}` answer of GitLab. -/
structure GitlabCommitInfo where
  id : String
  message : String
  authoredDate : String
  authorEmail : String
  authorName : String
  committedDate : String
  committerEmail : String
  committerName : String
  parentIds : List String
  deriving Repr

/-- `Gitlab.__get_dangling_commits.handle_new_commit_info`: raises
`RepositoryError` when the commit was already `FOUND`; otherwise sets
it `FOUND`, populates its fields and runs the parent loop. -/
def gitlabHandleNewCommitInfo (g : Graph) (localCommits : List String)
    (info : GitlabCommitInfo) : Except PyError Graph :=
  match g info.id with
  | none => .error .keyError
  | some c =>
    if c.status = CommitStatus.found then .error .repositoryError
    else
      let c1 := { c with
        status := CommitStatus.found,
        message := some info.message,
        author := some ⟨info.authoredDate, info.authorEmail, info.authorName⟩,
        committer := some ⟨info.committedDate, info.committerEmail, info.committerName⟩ }
      processParents (updateGraph g info.id c1) info.id localCommits info.parentIds

/-- One resolver step of the per-sha loop of
`Gitlab.__get_dangling_commits`: a 404 (`none`) marks the queried sha
`ERASED`; otherwise the answer goes through
`handle_new_commit_info`. -/
def gitlabQueryStep (g : Graph) (localCommits : List String) (sha : String)
    (result : Option GitlabCommitInfo) : Except PyError Graph :=
  match result with
  | none =>
    match g sha with
    | none => .error .keyError
    | some c => .ok (updateGraph g sha { c with status := CommitStatus.erased })
  | some info => gitlabHandleNewCommitInfo g localCommits info

/-- The elementary status transitions the resolver steps perform:
insertion of a discovered parent as `INCOMPLETE`, promotion
`UNKNOWN→INCOMPLETE`, completion `UNKNOWN/INCOMPLETE→FOUND`, erasure
`UNKNOWN/INCOMPLETE→ERASED`. `FOUND` and `ERASED` have no outgoing
transition. -/
inductive AllowedTransition : Option CommitStatus → Option CommitStatus → Prop where
  | insert : AllowedTransition none (some CommitStatus.incomplete)
  | promote : AllowedTransition (some CommitStatus.unknown) (some CommitStatus.incomplete)
  | foundFromUnknown :
      AllowedTransition (some CommitStatus.unknown) (some CommitStatus.found)
  | foundFromIncomplete :
      AllowedTransition (some CommitStatus.incomplete) (some CommitStatus.found)
  | eraseFromUnknown :
      AllowedTransition (some CommitStatus.unknown) (some CommitStatus.erased)
  | eraseFromIncomplete :
      AllowedTransition (some CommitStatus.incomplete) (some CommitStatus.erased)

/-- A sequence of allowed elementary transitions. -/
def AllowedPath : Option CommitStatus → Option CommitStatus → Prop :=
  Relation.ReflTransGen AllowedTransition

theorem allowedPath_found (b : Option CommitStatus)
    (h : AllowedPath (some CommitStatus.found) b) : b = some CommitStatus.found := by
  rcases Relation.ReflTransGen.cases_head h with rfl | ⟨c, hstep, _⟩
  · rfl
  · cases hstep

theorem allowedPath_erased (b : Option CommitStatus)
    (h : AllowedPath (some CommitStatus.erased) b) : b = some CommitStatus.erased := by
  rcases Relation.ReflTransGen.cases_head h with rfl | ⟨c, hstep, _⟩
  · rfl
  · cases hstep

theorem statusOf_updateGraph (g : Graph) (k : String) (c : Commit) (s : String) :
    statusOf (updateGraph g k c) s = if s = k then some c.status else statusOf g s := by
  unfold statusOf updateGraph
  by_cases hs : s = k
  · simp [hs]
  · simp [hs]

theorem processParents_path (localCommits : List String) :
    ∀ (ps : List String) (g : Graph) (sha : String) (g2 : Graph),
      processParents g sha localCommits ps = .ok g2 →
      (∀ s, AllowedPath (statusOf g s) (statusOf g2 s)) ∧
      (∀ s, statusOf g2 s = some CommitStatus.erased →
        statusOf g s = some CommitStatus.erased)
  | [], g, sha, g2, h => by
    cases h
    exact ⟨fun s => Relation.ReflTransGen.refl, fun s hs => hs⟩
  | p :: rest, g, sha, g2, h => by
    unfold processParents at h
    cases hg : g sha with
    | none => rw [hg] at h; cases h
    | some cSha =>
      simp only [hg] at h
      have hst1 : ∀ s, statusOf
          (updateGraph g sha { cSha with parents := setAdd cSha.parents p }) s =
          statusOf g s := by
        intro s
        rw [statusOf_updateGraph]
        by_cases hs : s = sha
        · subst hs
          simp [statusOf, hg]
        · simp [hs]
      cases hg1 : updateGraph g sha { cSha with parents := setAdd cSha.parents p } p with
      | some cp =>
        simp only [hg1] at h
        have hstp : statusOf g p = some cp.status := by
          rw [← hst1 p]
          simp [statusOf, hg1]
        cases hcp : cp.status with
        | unknown =>
          rw [hcp] at h
          rw [if_pos rfl] at h
          obtain ⟨ih1, ih2⟩ := processParents_path localCommits rest _ sha g2 h
          constructor
          · intro s
            refine Relation.ReflTransGen.trans ?_ (ih1 s)
            rw [statusOf_updateGraph]
            by_cases hs : s = p
            · subst hs
              rw [if_pos rfl, hstp, hcp]
              exact Relation.ReflTransGen.single AllowedTransition.promote
            · rw [if_neg hs, hst1 s]
          · intro s hs2
            have := ih2 s hs2
            rw [statusOf_updateGraph] at this
            by_cases hs : s = p
            · rw [if_pos hs] at this; cases this
            · rw [if_neg hs, hst1 s] at this; exact this
        | erased =>
          rw [hcp] at h
          simp only [if_neg (by decide : ¬(CommitStatus.erased = CommitStatus.unknown)),
            if_pos (by exact ⟨by decide, by decide⟩ :
              CommitStatus.erased ≠ CommitStatus.found ∧
              CommitStatus.erased ≠ CommitStatus.incomplete)] at h
          cases h
        | found =>
          rw [hcp] at h
          simp only [if_neg (by decide : ¬(CommitStatus.found = CommitStatus.unknown))] at h
          rw [if_neg (by
            intro hand
            exact hand.1 rfl)] at h
          obtain ⟨ih1, ih2⟩ := processParents_path localCommits rest _ sha g2 h
          constructor
          · intro s
            refine Relation.ReflTransGen.trans ?_ (ih1 s)
            rw [statusOf_updateGraph]
            by_cases hs : s = p
            · subst hs
              rw [if_pos rfl, hstp, hcp]
            · rw [if_neg hs, hst1 s]
          · intro s hs2
            have := ih2 s hs2
            rw [statusOf_updateGraph] at this
            by_cases hs : s = p
            · rw [if_pos hs] at this; cases this
            · rw [if_neg hs, hst1 s] at this; exact this
        | incomplete =>
          rw [hcp] at h
          simp only [if_neg (by decide :
            ¬(CommitStatus.incomplete = CommitStatus.unknown))] at h
          rw [if_neg (by
            intro hand
            exact hand.2 rfl)] at h
          obtain ⟨ih1, ih2⟩ := processParents_path localCommits rest _ sha g2 h
          constructor
          · intro s
            refine Relation.ReflTransGen.trans ?_ (ih1 s)
            rw [statusOf_updateGraph]
            by_cases hs : s = p
            · subst hs
              rw [if_pos rfl, hstp, hcp]
            · rw [if_neg hs, hst1 s]
          · intro s hs2
            have := ih2 s hs2
            rw [statusOf_updateGraph] at this
            by_cases hs : s = p
            · rw [if_pos hs] at this; cases this
            · rw [if_neg hs, hst1 s] at this; exact this
      | none =>
        simp only [hg1] at h
        have hstp : statusOf g p = none := by
          rw [← hst1 p]
          simp [statusOf, hg1]
        by_cases hploc : p ∈ localCommits
        · rw [if_pos hploc] at h
          obtain ⟨ih1, ih2⟩ := processParents_path localCommits rest _ sha g2 h
          constructor
          · intro s
            refine Relation.ReflTransGen.trans ?_ (ih1 s)
            rw [hst1 s]
          · intro s hs2
            have := ih2 s hs2
            rw [hst1 s] at this
            exact this
        · rw [if_neg hploc] at h
          obtain ⟨ih1, ih2⟩ := processParents_path localCommits rest _ sha g2 h
          constructor
          · intro s
            refine Relation.ReflTransGen.trans ?_ (ih1 s)
            rw [statusOf_updateGraph]
            by_cases hs : s = p
            · subst hs
              rw [if_pos rfl, hstp]
              exact Relation.ReflTransGen.single AllowedTransition.insert
            · rw [if_neg hs, hst1 s]
          · intro s hs2
            have := ih2 s hs2
            rw [statusOf_updateGraph] at this
            by_cases hs : s = p
            · rw [if_pos hs] at this; cases this
            · rw [if_neg hs, hst1 s] at this; exact this

theorem githubProcessNode_path (localCommits : List String) (g : Graph)
    (info : GithubCommitInfo) (g2 : Graph)
    (h : githubProcessNode localCommits g info = .ok g2)
    (hnode : statusOf g info.oid ≠ some CommitStatus.erased) :
    (∀ s, AllowedPath (statusOf g s) (statusOf g2 s)) ∧
    (∀ s, statusOf g2 s = some CommitStatus.erased →
      statusOf g s = some CommitStatus.erased) := by
  unfold githubProcessNode at h
  by_cases hloc : info.oid ∈ localCommits
  · rw [if_pos hloc] at h
    cases h
    exact ⟨fun s => Relation.ReflTransGen.refl, fun s hs => hs⟩
  · rw [if_neg hloc] at h
    by_cases hcount : info.parentsNodes.length ≠ info.parentsTotalCount
    · rw [if_pos hcount] at h
      cases h
    · rw [if_neg hcount] at h
      cases hg : g info.oid with
      | none => rw [hg] at h; cases h
      | some cNode =>
        simp only [hg] at h
        cases hsigr : (match info.signature with
            | none =>
              (.ok (some ⟨CommitSignatureStatus.unsigned, none, none⟩) :
                Except PyError (Option CommitSignature))
            | some s =>
              match commitSignatureStatusOfString s.state with
              | none => .error .repositoryError
              | some st => .ok (some ⟨st, s.signatureText, s.payload⟩)) with
        | error e => simp only [hsigr] at h; exact Except.noConfusion h
        | ok sigv =>
          simp only [hsigr] at h
          obtain ⟨ih1, ih2⟩ := processParents_path localCommits info.parentsNodes _
            info.oid g2 h
          have hstF : ∀ s, statusOf (updateGraph g info.oid
              { cNode with
                status := CommitStatus.found,
                tree := some info.treeOid,
                message := some info.message,
                author := some info.author,
                committer := some info.committer,
                signature := sigv }) s =
              if s = info.oid then some CommitStatus.found else statusOf g s := by
            intro s
            rw [statusOf_updateGraph]
          constructor
          · intro s
            refine Relation.ReflTransGen.trans ?_ (ih1 s)
            rw [hstF s]
            by_cases hs : s = info.oid
            · rw [if_pos hs, hs]
              cases hstat : statusOf g info.oid with
              | none => simp [statusOf, hg] at hstat
              | some st =>
                cases st with
                | unknown =>
                  exact Relation.ReflTransGen.single AllowedTransition.foundFromUnknown
                | incomplete =>
                  exact Relation.ReflTransGen.single AllowedTransition.foundFromIncomplete
                | found => exact Relation.ReflTransGen.refl
                | erased => exact absurd hstat hnode
            · rw [if_neg hs]
          · intro s hs2
            have := ih2 s hs2
            rw [hstF s] at this
            by_cases hs : s = info.oid
            · rw [if_pos hs] at this; cases this
            · rw [if_neg hs] at this; exact this

theorem githubProcessNodes_path (localCommits : List String) :
    ∀ (nodes : List GithubCommitInfo) (g : Graph) (g2 : Graph),
      githubProcessNodes localCommits g nodes = .ok g2 →
      (∀ info ∈ nodes, statusOf g info.oid ≠ some CommitStatus.erased) →
      (∀ s, AllowedPath (statusOf g s) (statusOf g2 s)) ∧
      (∀ s, statusOf g2 s = some CommitStatus.erased →
        statusOf g s = some CommitStatus.erased)
  | [], g, g2, h, _ => by
    cases h
    exact ⟨fun s => Relation.ReflTransGen.refl, fun s hs => hs⟩
  | info :: rest, g, g2, h, hnodes => by
    unfold githubProcessNodes at h
    cases hstep : githubProcessNode localCommits g info with
    | error e => rw [hstep] at h; cases h
    | ok gMid =>
      rw [hstep] at h
      obtain ⟨h1, h2⟩ := githubProcessNode_path localCommits g info gMid hstep
        (hnodes info (List.mem_cons_self info rest))
      obtain ⟨ih1, ih2⟩ := githubProcessNodes_path localCommits rest gMid g2 h
        (by
          intro info2 hinfo2 hcontra
          exact hnodes info2 (List.mem_cons_of_mem info hinfo2) (h2 info2.oid hcontra))
      exact ⟨fun s => Relation.ReflTransGen.trans (h1 s) (ih1 s),
        fun s hs => h2 s (ih2 s hs)⟩

theorem gitlabHandleNewCommitInfo_path (localCommits : List String) (g : Graph)
    (info : GitlabCommitInfo) (g2 : Graph)
    (h : gitlabHandleNewCommitInfo g localCommits info = .ok g2)
    (hnode : statusOf g info.id ≠ some CommitStatus.erased) :
    (∀ s, AllowedPath (statusOf g s) (statusOf g2 s)) ∧
    (∀ s, statusOf g2 s = some CommitStatus.erased →
      statusOf g s = some CommitStatus.erased) := by
  unfold gitlabHandleNewCommitInfo at h
  cases hg : g info.id with
  | none => rw [hg] at h; cases h
  | some c =>
    simp only [hg] at h
    by_cases hfound : c.status = CommitStatus.found
    · rw [if_pos hfound] at h; cases h
    · rw [if_neg hfound] at h
      obtain ⟨ih1, ih2⟩ := processParents_path localCommits info.parentIds _
        info.id g2 h
      constructor
      · intro s
        refine Relation.ReflTransGen.trans ?_ (ih1 s)
        rw [statusOf_updateGraph]
        by_cases hs : s = info.id
        · rw [if_pos hs, hs]
          have hstat : statusOf g info.id = some c.status := by
            simp [statusOf, hg]
          rw [hstat]
          cases hc : c.status with
          | unknown =>
            exact Relation.ReflTransGen.single AllowedTransition.foundFromUnknown
          | incomplete =>
            exact Relation.ReflTransGen.single AllowedTransition.foundFromIncomplete
          | found => exact absurd hc hfound
          | erased =>
            rw [hc] at hstat
            exact absurd hstat hnode
        · rw [if_neg hs]
      · intro s hs2
        have := ih2 s hs2
        rw [statusOf_updateGraph] at this
        by_cases hs : s = info.id
        · rw [if_pos hs] at this; cases this
        · rw [if_neg hs] at this; exact this

/-- C4 amended: the transitions a resolver step (one GitHub batched
record, or one GitLab per-sha query outcome) performs are only
`UNKNOWN→INCOMPLETE` (discovered as a parent, including insertion of a
new parent as `INCOMPLETE`), `UNKNOWN/INCOMPLETE→FOUND` (full metadata
retrieved), and `UNKNOWN/INCOMPLETE→ERASED` (server reports the queried
commit absent) — `INCOMPLETE→ERASED` happens whenever a commit first
seen as a parent is later reported absent. Under the resolver's
querying discipline (only `UNKNOWN`/`INCOMPLETE` commits are queried)
and a server that does not return previously-erased commits in a
history, a commit in `FOUND` or `ERASED` never transitions to any
other state. -/
theorem resolverStep_transitions_amended :
    (∀ (g : Graph) (localCommits : List String) (key : String)
       (fields : Option (List GithubCommitInfo)) (g2 : Graph),
      githubHandleRecord g localCommits key fields = .ok g2 →
      (fields = none → statusOf g (stripShaPrefix key) = some CommitStatus.unknown ∨
        statusOf g (stripShaPrefix key) = some CommitStatus.incomplete) →
      (∀ nodes, fields = some nodes →
        ∀ info ∈ nodes, statusOf g info.oid ≠ some CommitStatus.erased) →
      (∀ s, AllowedPath (statusOf g s) (statusOf g2 s)) ∧
      (∀ s, statusOf g s = some CommitStatus.found →
        statusOf g2 s = some CommitStatus.found) ∧
      (∀ s, statusOf g s = some CommitStatus.erased →
        statusOf g2 s = some CommitStatus.erased)) ∧
    (∀ (g : Graph) (localCommits : List String) (sha : String)
       (result : Option GitlabCommitInfo) (g2 : Graph),
      gitlabQueryStep g localCommits sha result = .ok g2 →
      (result = none → statusOf g sha = some CommitStatus.unknown ∨
        statusOf g sha = some CommitStatus.incomplete) →
      (∀ info, result = some info → statusOf g info.id ≠ some CommitStatus.erased) →
      (∀ s, AllowedPath (statusOf g s) (statusOf g2 s)) ∧
      (∀ s, statusOf g s = some CommitStatus.found →
        statusOf g2 s = some CommitStatus.found) ∧
      (∀ s, statusOf g s = some CommitStatus.erased →
        statusOf g2 s = some CommitStatus.erased)) := by
  constructor
  · intro g localCommits key fields g2 h hkey hnodes
    have hpath : ∀ s, AllowedPath (statusOf g s) (statusOf g2 s) := by
      cases fields with
      | none =>
        unfold githubHandleRecord at h
        cases hg : g (stripShaPrefix key) with
        | none => simp only [hg] at h; exact Except.noConfusion h
        | some c =>
          simp only [hg, Except.ok.injEq] at h
          subst h
          intro s
          rw [statusOf_updateGraph]
          by_cases hs : s = stripShaPrefix key
          · rw [if_pos hs, hs]
            rcases hkey rfl with hku | hki
            · rw [hku]
              exact Relation.ReflTransGen.single AllowedTransition.eraseFromUnknown
            · rw [hki]
              exact Relation.ReflTransGen.single AllowedTransition.eraseFromIncomplete
          · rw [if_neg hs]
            exact Relation.ReflTransGen.refl
      | some nodes =>
        exact (githubProcessNodes_path localCommits nodes g g2 h
          (hnodes nodes rfl)).1
    refine ⟨hpath, ?_, ?_⟩
    · intro s hf
      have := hpath s
      rw [hf] at this
      exact allowedPath_found _ this
    · intro s hf
      have := hpath s
      rw [hf] at this
      exact allowedPath_erased _ this
  · intro g localCommits sha result g2 h hkey hinfo
    have hpath : ∀ s, AllowedPath (statusOf g s) (statusOf g2 s) := by
      cases result with
      | none =>
        unfold gitlabQueryStep at h
        cases hg : g sha with
        | none => simp only [hg] at h; exact Except.noConfusion h
        | some c =>
          simp only [hg, Except.ok.injEq] at h
          subst h
          intro s
          rw [statusOf_updateGraph]
          by_cases hs : s = sha
          · rw [if_pos hs, hs]
            rcases hkey rfl with hku | hki
            · rw [hku]
              exact Relation.ReflTransGen.single AllowedTransition.eraseFromUnknown
            · rw [hki]
              exact Relation.ReflTransGen.single AllowedTransition.eraseFromIncomplete
          · rw [if_neg hs]
            exact Relation.ReflTransGen.refl
      | some info =>
        exact (gitlabHandleNewCommitInfo_path localCommits g info g2 h
          (hinfo info rfl)).1
    refine ⟨hpath, ?_, ?_⟩
    · intro s hf
      have := hpath s
      rw [hf] at this
      exact allowedPath_found _ this
    · intro s hf
      have := hpath s
      rw [hf] at this
      exact allowedPath_erased _ this

/-- C4 counterexample: both resolvers perform `INCOMPLETE→ERASED`
(a commit discovered as a parent, then reported absent by the server),
a transition outside the claimed list. -/
theorem resolverStep_incomplete_to_erased_counterexample :
    let g0 : Graph := updateGraph (fun _ => none) "a"
      { sha := "a", status := CommitStatus.incomplete, parents := [], children := [] }
    statusOf g0 "a" = some CommitStatus.incomplete ∧
    (githubHandleRecord g0 [] "sha_a" none).map (fun g => statusOf g "a") =
      .ok (some CommitStatus.erased) ∧
    (gitlabQueryStep g0 [] "a" none).map (fun g => statusOf g "a") =
      .ok (some CommitStatus.erased) := by
  intro g0
  exact ⟨rfl, rfl, rfl⟩

/-- Witness for the amended C4 at a concrete two-commit graph
(`"a"` INCOMPLETE and erased by the step, `"b"` FOUND and kept). -/
theorem resolverStep_transitions_amended_witness :
    let cA : Commit := { sha := "a", status := CommitStatus.incomplete,
                         parents := [], children := [] }
    let cB : Commit := { sha := "b", status := CommitStatus.found,
                         parents := [], children := [] }
    let g0 : Graph := updateGraph (updateGraph (fun _ => none) "a" cA) "b" cB
    let g1 : Graph := updateGraph g0 "a" { cA with status := CommitStatus.erased }
    AllowedPath (statusOf g0 "a") (statusOf g1 "a") ∧
    statusOf g1 "b" = some CommitStatus.found := by
  intro cA cB g0 g1
  have h := resolverStep_transitions_amended.1 g0 [] "sha_a" none g1 rfl
    (fun _ => Or.inr rfl) (fun nodes hn => by cases hn)
  exact ⟨h.1 "a", h.2.1 "b" rfl⟩

/-- `branch.Branch` (the source field `end` is a Lean keyword and is
carried as `endCommit`). -/
structure Branch where
  endCommit : Commit
  origins : List Commit
  length : Nat
  deriving Repr

/-- Association-list lookup in the ordered dict model. -/
def lookupDict (dict : List (String × Commit)) (k : String) : Option Commit :=
  (dict.find? (fun kv => kv.1 == k)).map (fun kv => kv.2)

/-- `sha in dangling_commits_dict.keys()`. -/
def isDictKey (dict : List (String × Commit)) (k : String) : Bool :=
  dict.any (fun kv => kv.1 == k)

/-- The mutable state of the parent walk in
`GitRepository.get_dangling_branches`: `tree_length`,
`already_checked`, `to_check` and `origins`. -/
structure WalkState where
  treeLength : Nat
  alreadyChecked : List String
  toCheck : List String
  origins : List Commit

/-- The body of `for parent in to_check.copy()` of
`get_dangling_branches`: an unchecked parent is counted and its own
parents are scanned (a grandparent inside the dangling dict is
scheduled; any other grandparent makes `dict[parent]` an origin); the
parent is then marked checked and removed from `to_check` (the inner
loop never consults `local_commits`; the `none` lookup branch is
unreachable because `to_check` only ever holds dict keys — Python
would raise `KeyError` there). -/
def walkInner (dict : List (String × Commit))
    (snapshot : List String) (st : WalkState) : WalkState :=
  snapshot.foldl
    (fun st parent =>
      let st1 :=
        if parent ∈ st.alreadyChecked then st
        else
          match lookupDict dict parent with
          | none => { st with treeLength := st.treeLength + 1 }
          | some cp =>
            if cp.parents.isEmpty then
              { st with treeLength := st.treeLength + 1 }
            else
              cp.parents.foldl
                (fun st2 grandfather =>
                  if isDictKey dict grandfather then
                    { st2 with toCheck := setAdd st2.toCheck grandfather }
                  else
                    { st2 with origins := st2.origins ++ [cp] })
                { st with treeLength := st.treeLength + 1 }
      { st1 with
        alreadyChecked := setAdd st1.alreadyChecked parent,
        toCheck := st1.toCheck.erase parent })
    st

/-- The `while to_check:` loop, iterated over snapshots of `to_check`
(fuelled; the fuel passed by `branchFor` dominates the number of
iterations the Python loop can make, each iteration marking every
snapshot element checked). -/
def walkLoop (dict : List (String × Commit)) :
    Nat → WalkState → WalkState
  | 0, st => st
  | fuel + 1, st =>
    if st.toCheck.isEmpty then st
    else walkLoop dict fuel (walkInner dict st.toCheck st)

/-- The per-branch-end block of `get_dangling_branches`: seed the walk
from the end commit's parents (a parent in the dict is scheduled, a
local parent makes the end an origin, any other parent is logged and
ignored), run the walk, and build the `Branch`. -/
def branchFor (dict : List (String × Commit)) (localCommits : List String)
    (commit : Commit) : Branch :=
  let st0 := commit.parents.foldl
    (fun st parent =>
      if isDictKey dict parent then { st with toCheck := setAdd st.toCheck parent }
      else if parent ∈ localCommits then { st with origins := st.origins ++ [commit] }
      else st)
    { treeLength := 1, alreadyChecked := [], toCheck := [], origins := [] }
  let stF := walkLoop dict (dict.length + 2) st0
  { endCommit := commit, origins := stF.origins, length := stF.treeLength }

/-- `GitRepository.get_dangling_branches`: one `Branch` per `FOUND`
commit with no children, in dict insertion order. -/
def getDanglingBranches (dict : List (String × Commit)) (localCommits : List String) :
    List Branch :=
  (dict.filter (fun kv =>
    decide (kv.2.status = CommitStatus.found) && kv.2.children.isEmpty)).map
    (fun kv => branchFor dict localCommits kv.2)

/-- C5: evaluation of `get_dangling_branches` at the failing input (a
branch end `E` over a dangling commit `P` whose only parent `X` is an
orphan — neither local nor dangling) and, for contrast, at the
spec-conformant chain scenario (`D2 → D1 → L` with `L` local). On the
failing input the code records `P` as an origin although `P` has no
parent in `LocalInventory.commits` (the claim requires origins to be
exactly the walked commits with a local parent, and the spec says an
orphan parent is logged and ignored). -/
theorem getDanglingBranches_orphan_origin :
    let cE : Commit := { sha := "E", status := CommitStatus.found,
                         parents := ["P"], children := [] }
    let cP : Commit := { sha := "P", status := CommitStatus.found,
                         parents := ["X"], children := ["E"] }
    let cD2 : Commit := { sha := "D2", status := CommitStatus.found,
                          parents := ["D1"], children := [] }
    let cD1 : Commit := { sha := "D1", status := CommitStatus.found,
                          parents := ["L"], children := ["D2"] }
    ((getDanglingBranches [("E", cE), ("P", cP)] []).map
      (fun b => (b.endCommit.sha, b.origins.map (fun c => c.sha), b.length)) =
      [("E", ["P"], 2)]) ∧
    ((getDanglingBranches [("D2", cD2), ("D1", cD1)] ["L"]).map
      (fun b => (b.endCommit.sha, b.origins.map (fun c => c.sha), b.length)) =
      [("D2", ["D1"], 2)]) := by
  intro cE cP cD2 cD1
  exact ⟨rfl, rfl⟩

end DanglingCommits
